import Mathlib

/-! ## BOMObservations: a shallow embedding of `src/BOMObservations.h`

The header defines one class with three member functions:

* `sendHttpRequest`  : opens the connection and writes the request head,
* `requestObservations` : sends the request and scans the response line by line,
* `getItemAt` : cuts one comma-delimited item out of the captured line.

Bytes are natural numbers.  The 16-bit and 8-bit locals of the source are natural numbers
reduced `% 65536` / `% 256` wherever the source stores into them.  `int` is 32 bits wide on
the target (ESP8266), so the sum `i_field + index`, whose operands are promoted to `int`, is
evaluated without wrap-around.

`getItemAt` is embedded twice: as a function of the contents of the block `_observations`
points to (`getItemAt`), and as a run over an explicit heap in which every read and write goes
through a pointer (`getItemAtCall`).  `getItemAtCall_eq` relates the two.
-/

namespace BOM

/-! ## Constants (lines 5-29 of the header) -/

/-- Bytes of an ASCII literal. -/
def bytes (s : String) : List Nat := s.toList.map Char.toNat

/-- The two bytes written for a line break. -/
def CRLF : List Nat := [13, 10]

def DATA_HEADER : List Nat := bytes "[data]"
def DATA_OFFSET : Nat := 2
def DATA_BUFSIZE : Nat := 512
def DATA_DELIM : Nat := 0x2C
def DATA_QUOTE : Nat := 0x22

def HTTP_HOSTNAME : List Nat := bytes "www.bom.gov.au"
def HTTP_METHOD_GET : List Nat := bytes "GET"
def HTTP_CONNECTION : List Nat := bytes "close"
def HTTP_USER_AGENT : List Nat := bytes "ESP8266"

/-! ## C strings and raw memory -/

/-- The text of the C string that starts at the beginning of `s`: the bytes before the first
zero byte. -/
def cstr (s : List Nat) : List Nat := s.takeWhile (fun b => b != 0)

/-- Ways in which a run of the source leaves defined behaviour. -/
inductive Fault where
  /-- a read through a pointer that was never assigned -/
  | unsetPointer
  /-- a read beyond the end of the allocated block -/
  | outOfBounds
  /-- a loop whose condition can never become false -/
  | nonTermination
  deriving DecidableEq, Repr

deriving instance DecidableEq for Except

/-- The value of `strlen(s)` for a block with contents `s`: the scan for the terminator must
find one inside the block. -/
def strlen (s : List Nat) : Except Fault Nat :=
  if 0 ∈ s then .ok (cstr s).length else .error .outOfBounds

/-- Zero test of `strcmp(s, lit)`, with `lit` the text of a string literal: `0` when the C
string at `s` equals the literal, `1` otherwise. -/
def strcmp (s lit : List Nat) : Nat := if cstr s = lit then 0 else 1

/-- The block after `memset(buf, v, n)`. -/
def memset (buf : List Nat) (v n : Nat) : List Nat := List.replicate n v ++ buf.drop n

/-- The block after `data` has been stored at its start. -/
def store (buf data : List Nat) : List Nat := data ++ buf.drop data.length

/-! ## The network client -/

/-- Modelled from the spec: the byte-stream client (`WiFiClient`, section 6 of the
specification) is an external collaborator whose code is not part of the repository.  The
model is a scripted peer: `reachable` is the outcome `connect` will have, `rx` is the response
that is still unread, `tx` collects what has been written.  `nreads` counts the calls of
`readBytesUntil` and `stopped` records a call of `stop`, so that theorems can speak about them.
The peer has sent its whole response and closes the connection after it, which is what the
`Connection: close` header asks for; waiting for bytes in transit is not modelled. -/
structure WiFiClient where
  reachable : Bool
  peer : Option (List Nat × Nat)
  established : Bool
  rx : List Nat
  tx : List Nat
  nreads : Nat
  stopped : Bool
  deriving DecidableEq, Repr

namespace WiFiClient

/-- Modelled from the spec: the call `connect(host, port)`; its outcome is scripted. -/
def connect (c : WiFiClient) (host : List Nat) (port : Nat) : Bool × WiFiClient :=
  (c.reachable, { c with peer := some (host, port), established := c.reachable })

/-- Modelled from the spec: the call `connected()`, true while the connection is up.  The
peer closes once it has sent everything, so a connection that was opened and not stopped is
up exactly as long as unread data is left. -/
def connected (c : WiFiClient) : Bool := c.established && !c.rx.isEmpty

/-- Modelled from the spec: the call `available()`, the number of bytes that can be read. -/
def available (c : WiFiClient) : Nat := c.rx.length

/-- Modelled from the spec: bytes appended to the output by `printf` and `println`. -/
def write (c : WiFiClient) (bs : List Nat) : WiFiClient := { c with tx := c.tx ++ bs }

/-- Modelled from the spec: the call `stop()`; the connection is closed and unread data is
dropped. -/
def stop (c : WiFiClient) : WiFiClient :=
  { c with established := false, rx := [], stopped := true }

end WiFiClient

/-- Modelled from the spec: the read primitive `readBytesUntil(terminator, buffer, length)`
over the unread bytes ("read up to buffer-capacity bytes or until a newline").  Bytes are
taken until `length` of them are stored, the terminator is met (it is consumed and not
stored) or no byte is left.  The result is the stored bytes and the bytes left unread. -/
def readBytesUntil (terminator : Nat) : Nat → List Nat → List Nat × List Nat
  | 0, rx => ([], rx)
  | _ + 1, [] => ([], [])
  | n + 1, c :: rx =>
    if c = terminator then ([], rx)
    else ((c :: (readBytesUntil terminator n rx).1), (readBytesUntil terminator n rx).2)

/-- Modelled from the spec: the call `readBytesUntil(terminator, buffer, length)` on the
client; the stored bytes and the client afterwards. -/
def WiFiClient.readBytesUntil (c : WiFiClient) (terminator length : Nat) :
    List Nat × WiFiClient :=
  ((BOM.readBytesUntil terminator length c.rx).1,
   { c with rx := (BOM.readBytesUntil terminator length c.rx).2, nreads := c.nreads + 1 })

/-! ## The class -/

/-- The private struct `httpRequest`. -/
structure httpRequest where
  method : List Nat
  host : List Nat
  path : List Nat
  deriving DecidableEq, Repr

/-- The data members of `BOMObservations`.  `observations` is `none` as long as the pointer
`_observations` has not been assigned; afterwards it holds the contents of the block it points
to. -/
structure BOMObservations where
  client : WiFiClient
  observations : Option (List Nat)
  deriving DecidableEq, Repr

/-- Member function `BOMObservations::sendHttpRequest` (lines 55-68).  The members of
`http` are the texts of the C strings the source passes to `%s`. -/
def sendHttpRequest (client : WiFiClient) (http : httpRequest) : Bool × WiFiClient :=
  if (client.connect http.host 80).1 then
    let c0 := (client.connect http.host 80).2
    let c1 := c0.write (http.method ++ bytes " " ++ http.path ++ bytes " HTTP/1.1" ++ CRLF)
    let c2 := c1.write (bytes "Host: " ++ http.host ++ CRLF)
    let c3 := c2.write (bytes "Connection: " ++ HTTP_CONNECTION ++ CRLF)
    let c4 := c3.write (bytes "User-Agent: " ++ HTTP_USER_AGENT ++ CRLF)
    let c5 := c4.write CRLF
    (true, c5)
  else
    (false, (client.connect http.host 80).2)

/-- The variables that live across the iterations of the read loop of
`requestObservations`. -/
structure ScanState where
  client : WiFiClient
  observations : List Nat
  i_line : Nat
  i_field : Nat
  deriving DecidableEq, Repr

/-- One pass through the body of the `if (_client->available())` block (lines 86-97). -/
def scanBody (index : Nat) (s : ScanState) : ScanState :=
  let cleared := memset s.observations 0 DATA_BUFSIZE
  let rd := s.client.readBytesUntil 10 DATA_BUFSIZE
  let obs := store cleared rd.1
  let i_field :=
    if strcmp obs DATA_HEADER = 0 then (s.i_line + DATA_OFFSET) % 65536 else s.i_field
  let client := if s.i_line = i_field + index then rd.2.stop else rd.2
  { client := client, observations := obs, i_line := (s.i_line + 1) % 65536, i_field := i_field }

/-- The `while (_client->connected())` loop (lines 84-99), run for at most `fuel`
iterations. -/
def scanLoop (index : Nat) : Nat → ScanState → ScanState
  | 0, s => s
  | fuel + 1, s =>
    if s.client.connected then
      if s.client.available ≠ 0 then scanLoop index fuel (scanBody index s)
      else scanLoop index fuel s
    else s

/-- Member function `BOMObservations::requestObservations` (lines 70-102).  `path` is the
text of the C string `path`, `index` the value of the 8-bit parameter, and `fresh` the indeterminate
contents of the block that `malloc` returns (`DATA_BUFSIZE * sizeof(char*)` bytes).  Every
iteration of the loop consumes at least one byte of the response, so its length is enough
fuel (`scanLoop_connected`). -/
def requestObservations (self : BOMObservations) (fresh : List Nat) (path : List Nat)
    (index : Nat) : Bool × BOMObservations :=
  let h_bom_req : httpRequest := { method := HTTP_METHOD_GET, host := HTTP_HOSTNAME, path := path }
  let sent := sendHttpRequest self.client h_bom_req
  let s := scanLoop index sent.2.rx.length
    { client := sent.2, observations := fresh, i_line := 0, i_field := 0xFFFF }
  (sent.1, { client := s.client, observations := some s.observations })

/-- Lines 116-124 of `getItemAt`: the quote test, the length and the copy, for the item between
`i_delim_prev` and the delimiter at `i_delim_curr`.  The difference of the two 16-bit
boundaries is an `int` that is stored into the 8-bit `i_length`; the boundaries are below
65536, so adding 65536, a multiple of 256, leaves the stored value unchanged and keeps the
computation in the naturals.  The result is the text copied by `memcpy`, to which the source
appends the terminator. -/
def copyItem (obs : List Nat) (i_delim_prev i_delim_curr : Nat) :
    Except Fault (Option (List Nat)) :=
  let quoted : Bool := obs.getD i_delim_prev 0 = DATA_QUOTE
  let prev := if quoted then (i_delim_prev + 1) % 65536 else i_delim_prev
  let curr := if quoted then (i_delim_curr + 65535) % 65536 else i_delim_curr
  let i_length := (curr + 65536 - prev) % 256
  if prev + i_length ≤ obs.length then .ok (some ((obs.drop prev).take i_length))
  else .error .outOfBounds

/-- The `for` loop of `getItemAt` (lines 111-131).  The loop visits `_observations[i]` for
`i` from 0 up to `strlen(_observations)`, that is the bytes of the C string in order; the
first argument is the part of that string still to be visited and `c` is
`_observations[i]`.  `.ok none` is the initial value of `s_item`, returned when the loop runs
out. -/
def itemLoop (obs : List Nat) (index : Nat) :
    List Nat → Nat → Nat → Nat → Except Fault (Option (List Nat))
  | [], _, _, _ => .ok none
  | c :: cs, i, i_index, i_delim_prev =>
    if c = DATA_DELIM then
      if index = i_index then copyItem obs i_delim_prev i
      else itemLoop obs index cs ((i + 1) % 65536) ((i_index + 1) % 65536) ((i + 1) % 65536)
    else itemLoop obs index cs ((i + 1) % 65536) i_index i_delim_prev

/-- Member function `BOMObservations::getItemAt` (lines 104-134).  `.ok none` is the null
pointer and `.ok (some s)` a newly allocated string with text `s`.  The 16-bit loop counter
can only pass a text shorter than 65536 bytes. -/
def getItemAt (self : BOMObservations) (index : Nat) : Except Fault (Option (List Nat)) :=
  match self.observations with
  | none => .error .unsetPointer
  | some obs =>
    match strlen obs with
    | .error e => .error e
    | .ok n =>
      if 65536 ≤ n then .error .nonTermination
      else itemLoop obs index (cstr obs) 0 0 0

/-- The captured line: the C string held by the block `_observations` points to. -/
def capturedLine (self : BOMObservations) : Option (List Nat) := self.observations.map cstr

/-! ## Responses made of text lines -/

/-- A line of text as one read of the loop delivers it whole: it has no zero byte, no line
feed, and fewer than `DATA_BUFSIZE` bytes. -/
def TextLine (l : List Nat) : Prop := 0 ∉ l ∧ 10 ∉ l ∧ l.length < DATA_BUFSIZE

instance (l : List Nat) : Decidable (TextLine l) := by
  unfold TextLine
  infer_instance

/-- The bytes of a response whose lines are `lines`, each one ended by a line feed. -/
def wire (lines : List (List Nat)) : List Nat := (lines.map (fun l => l ++ [10])).flatten

/-- What the counters of the read loop do, seen line by line. -/
structure LineRun where
  nread : Nat
  stopped : Bool
  last : Option (List Nat)
  deriving DecidableEq, Repr

/-- The read loop of `requestObservations` with the byte handling taken out: the counters
`i_line` and `i_field` are stepped over a list of text lines.  `scanLoop_wire` shows that the
loop of the source does exactly this on `wire lines`. -/
def scanLines (index : Nat) : List (List Nat) → Nat → Nat → LineRun
  | [], _, _ => { nread := 0, stopped := false, last := none }
  | l :: ls, i_line, i_field =>
    let i_field1 := if l = DATA_HEADER then (i_line + DATA_OFFSET) % 65536 else i_field
    if i_line = i_field1 + index then { nread := 1, stopped := true, last := some l }
    else
      let r := scanLines index ls ((i_line + 1) % 65536) i_field1
      { nread := r.nread + 1, stopped := r.stopped, last := some (r.last.getD l) }

/-- A client that has not been used yet, whose peer will answer with `rx`. -/
def WiFiClient.fresh (reachable : Bool) (rx : List Nat) : WiFiClient :=
  { reachable := reachable, peer := none, established := false, rx := rx, tx := [],
    nreads := 0, stopped := false }

/-- The bytes of `items`, each one followed by a delimiter: the part of a line that lies
before the item number `items.length`. -/
def delimited (items : List (List Nat)) : List Nat :=
  (items.map (fun f => f ++ [DATA_DELIM])).flatten

/-! ## Sample responses -/

/-- The response of the end-to-end scenario of the specification. -/
def sampleLines : List (List Nat) :=
  [bytes "foo", DATA_HEADER, bytes "skip1", bytes "skip2", bytes "1,2,3"]

/-- A response in which the marker line comes twice in a row. -/
def twoMarkerLines : List (List Nat) := [DATA_HEADER, DATA_HEADER, bytes "a", bytes "b"]

/-- A response with a second marker line after the target row of the first one. -/
def lateMarkerLines : List (List Nat) := [DATA_HEADER, bytes "a", bytes "b", DATA_HEADER]

/-- A response of 65537 lines without a marker line: 65536 empty lines and a last line. -/
def longLines : List (List Nat) := List.replicate 65536 [] ++ [bytes "x"]

/-- The line `a,"b",c`. -/
def quotedLine : List Nat := bytes "a," ++ [DATA_QUOTE] ++ bytes "b" ++ [DATA_QUOTE] ++ bytes ",c"

/-- A line of 256 bytes `a` followed by a delimiter. -/
def longItemLine : List Nat := List.replicate 256 97 ++ [DATA_DELIM]

/-- An object whose client has not been used and whose peer will answer with `lines`. -/
def sampleObject (reachable : Bool) (lines : List (List Nat)) : BOMObservations :=
  { client := WiFiClient.fresh reachable (wire lines), observations := none }

/-- A block of `DATA_BUFSIZE * sizeof(char*)` bytes as `malloc` may return it. -/
def sampleBlock : List Nat := List.replicate (DATA_BUFSIZE * 4) 0xA5

/-! ## The object before and after a call -/

/-- The constructor `BOMObservations::BOMObservations` (lines 51-53): it stores the client
and assigns nothing to `_observations`. -/
def BOMObservations.new (client : WiFiClient) : BOMObservations :=
  { client := client, observations := none }

/-- A block of `DATA_BUFSIZE * sizeof(char*)` bytes that holds the text `x,y` from an earlier
use and zero bytes behind it. -/
def staleBlock : List Nat := bytes "x,y" ++ 0 :: List.replicate 2044 0

/-- The line made of a quote mark, a delimiter and the byte `x`: its item 0 is the quote mark
alone. -/
def loneQuoteLine : List Nat := [DATA_QUOTE, DATA_DELIM, 120]

/-! ## Responses as sequences of reads -/

/-- The reads of the loop on the unread bytes `rx` when it is not stopped, at most `fuel` of
them: what each call `readBytesUntil(10, _observations, DATA_BUFSIZE)` stores, in order. -/
def readsAux : Nat → List Nat → List (List Nat)
  | 0, _ => []
  | fuel + 1, rx =>
    if rx = [] then []
    else (readBytesUntil 10 DATA_BUFSIZE rx).1
      :: readsAux fuel (readBytesUntil 10 DATA_BUFSIZE rx).2

/-- The reads of the loop on the response `rx` when it is not stopped.  Every read consumes
at least one byte, so the length of `rx` is enough fuel. -/
def reads (rx : List Nat) : List (List Nat) := readsAux rx.length rx

/-- A read as the counters see it: the marker when the C string it leaves in the block is
the marker, the empty line otherwise. -/
def markerTag (d : List Nat) : List Nat := if cstr d = DATA_HEADER then DATA_HEADER else []

/-- A line of 512 bytes `a`: it fills the capacity of the block exactly. -/
def fullLine : List Nat := List.replicate 512 97

/-- The bytes of a response whose target row (row offset 0) is `fullLine`: the lines are
`[data]`, `x`, `fullLine` and `y`. -/
def fullRowResponse : List Nat :=
  wire [DATA_HEADER, bytes "x"] ++ (fullLine ++ 10 :: wire [bytes "y"])

/-- The bytes of a response with `fullLine` right behind the marker line: the lines are
`[data]`, `fullLine`, `x` and `y`. -/
def fullSecondResponse : List Nat :=
  wire [DATA_HEADER] ++ (fullLine ++ 10 :: wire [bytes "x", bytes "y"])

/-- An object whose client has not been used and whose peer will answer with the bytes
`rx`. -/
def sampleObjectRaw (reachable : Bool) (rx : List Nat) : BOMObservations :=
  { client := WiFiClient.fresh reachable rx, observations := none }

/-! ## The heap: `getItemAt` as a run over memory -/

/-- The memory that `malloc` manages: the contents of the blocks it has handed out, in the
order of the calls.  A pointer to the start of a block is the number of that block. -/
structure Heap where
  blocks : List (List Nat)
  deriving DecidableEq, Repr

namespace Heap

/-- The contents of the block `p` points to.  A pointer that `malloc` has not returned
refers to no block. -/
def block (h : Heap) (p : Nat) : Except Fault (List Nat) :=
  match h.blocks[p]? with
  | some b => .ok b
  | none => .error .unsetPointer

/-- The byte `p[i]`. -/
def load (h : Heap) (p i : Nat) : Except Fault Nat :=
  match h.block p with
  | .error e => .error e
  | .ok b =>
    match b[i]? with
    | some c => .ok c
    | none => .error .outOfBounds

/-- The value of `strlen(p)`. -/
def strlen (h : Heap) (p : Nat) : Except Fault Nat :=
  match h.block p with
  | .error e => .error e
  | .ok b => BOM.strlen b

/-- The call `malloc(n)`, taken to succeed as the source takes it: a new block of `n` bytes
whose contents are indeterminate, `fresh i` being the byte at offset `i`.  The pointer it
returns refers to none of the blocks handed out before. -/
def malloc (h : Heap) (n : Nat) (fresh : Nat → Nat) : Nat × Heap :=
  (h.blocks.length, { blocks := h.blocks ++ [(List.range n).map fresh] })

/-- The call `memcpy(dst, &src[off], n)`. -/
def memcpy (h : Heap) (dst src off n : Nat) : Except Fault Heap :=
  match h.block src with
  | .error e => .error e
  | .ok s =>
    match h.block dst with
    | .error e => .error e
    | .ok d =>
      if off + n ≤ s.length ∧ n ≤ d.length then
        .ok { blocks := h.blocks.set dst (store d ((s.drop off).take n)) }
      else .error .outOfBounds

/-- The assignment `p[i] = v`. -/
def storeByte (h : Heap) (p i v : Nat) : Except Fault Heap :=
  match h.block p with
  | .error e => .error e
  | .ok b =>
    if i < b.length then .ok { blocks := h.blocks.set p (b.set i v) }
    else .error .outOfBounds

/-- The text of the C string `p` points to. -/
def text (h : Heap) (p : Nat) : Except Fault (List Nat) :=
  match h.block p with
  | .error e => .error e
  | .ok b => if 0 ∈ b then .ok (cstr b) else .error .outOfBounds

end Heap

/-- The data members of `BOMObservations` with `_observations` as a pointer into the heap;
it is `none` as long as the pointer has not been assigned. -/
structure Object where
  client : WiFiClient
  observations : Option Nat
  deriving DecidableEq, Repr

/-- The object as `requestObservations` and `getItemAt` above see it: the pointer replaced
by the contents of the block it points to. -/
def Object.view (self : Object) (heap : Heap) : BOMObservations :=
  { client := self.client,
    observations := match self.observations with
      | none => none
      | some p => heap.blocks[p]? }

/-- Lines 116-124 of `getItemAt` over the heap: the quote test, the length, the allocation of
`s_item`, the copy and the terminator.  `obs` is the pointer `_observations`; the result is
`s_item` and the heap after the writes. -/
def copyItemRun (heap : Heap) (obs : Nat) (fresh : Nat → Nat) (i_delim_prev i_delim_curr : Nat) :
    Except Fault (Option Nat × Heap) :=
  match heap.load obs i_delim_prev with
  | .error e => .error e
  | .ok q =>
    let prev := if q = DATA_QUOTE then (i_delim_prev + 1) % 65536 else i_delim_prev
    let curr := if q = DATA_QUOTE then (i_delim_curr + 65535) % 65536 else i_delim_curr
    let i_length := (curr + 65536 - prev) % 256
    let m := heap.malloc ((i_length + 1) * 4) fresh
    match m.2.memcpy m.1 obs prev i_length with
    | .error e => .error e
    | .ok heap1 =>
      match heap1.storeByte m.1 i_length 0 with
      | .error e => .error e
      | .ok heap2 => .ok (some m.1, heap2)

/-- The `for` loop of `getItemAt` (lines 111-131) over the heap, run for at most `fuel` tests
of its condition.  `strlen(_observations)` is evaluated at every test and every byte is read
through the pointer.  The result is `s_item` (`none` is the null pointer it starts with) and
the heap at the end. -/
def itemRun (heap : Heap) (obs : Nat) (index : Nat) (fresh : Nat → Nat) :
    Nat → Nat → Nat → Nat → Except Fault (Option Nat × Heap)
  | 0, _, _, _ => .error .nonTermination
  | fuel + 1, i, i_index, i_delim_prev =>
    match heap.strlen obs with
    | .error e => .error e
    | .ok n =>
      if i < n then
        match heap.load obs i with
        | .error e => .error e
        | .ok c =>
          if c = DATA_DELIM then
            if index = i_index then copyItemRun heap obs fresh i_delim_prev i
            else itemRun heap obs index fresh fuel
              ((i + 1) % 65536) ((i_index + 1) % 65536) ((i + 1) % 65536)
          else itemRun heap obs index fresh fuel ((i + 1) % 65536) i_index i_delim_prev
      else .ok (none, heap)

/-- Member function `BOMObservations::getItemAt` (lines 104-134) as a run over the heap:
the pointer returned (`none` is the null pointer) and the heap after the call.  `fresh` is the
indeterminate contents of the block that `malloc` returns for `s_item`.  The function
assigns to no data member.  A string shorter than 65536 bytes is passed in at most 65536
tests of the loop condition, and a block of `DATA_BUFSIZE * sizeof(char*)` bytes holds no
longer one. -/
def getItemAtCall (self : Object) (heap : Heap) (fresh : Nat → Nat) (index : Nat) :
    Except Fault (Option Nat × Heap) :=
  match self.observations with
  | none => .error .unsetPointer
  | some obs => itemRun heap obs index fresh 65536 0 0 0

/-- The block of `s_item` after the copy of `s` and the terminator: the bytes behind the
terminator are as `malloc` left them. -/
def itemBlock (s : List Nat) (fresh : Nat → Nat) : List Nat :=
  s ++ 0 :: ((List.range ((s.length + 1) * 4)).map fresh).drop (s.length + 1)

/-- What a run over the heap makes of a result of `getItemAt`: a string is placed in a new
block at the end of the heap, and nothing else is written. -/
def placed (heap : Heap) (fresh : Nat → Nat) :
    Except Fault (Option (List Nat)) → Except Fault (Option Nat × Heap)
  | .error e => .error e
  | .ok none => .ok (none, heap)
  | .ok (some s) =>
    .ok (some heap.blocks.length, { blocks := heap.blocks ++ [itemBlock s fresh] })

/-- An object whose pointer `_observations` refers to block 0 of the heap. -/
def itemObject : Object := { client := WiFiClient.fresh true [], observations := some 0 }

/-- A heap whose only block has `DATA_BUFSIZE * sizeof(char*)` bytes and holds the captured
line `a,b,c`. -/
def itemHeap : Heap := { blocks := [bytes "a,b,c" ++ 0 :: List.replicate 2042 0] }

/-! ## Memory and reads -/

theorem cstr_append_zero (l t : List Nat) (h : 0 ∉ l) : cstr (l ++ 0 :: t) = l := by
  induction l with
  | nil => simp [cstr]
  | cons a l ih =>
    have ha : a ≠ 0 := fun e => h (by simp [e])
    have hl : 0 ∉ l := fun e => h (by simp [e])
    have := ih hl
    simp only [cstr] at this ⊢
    simp [List.takeWhile_cons, ha, this]

theorem readBytesUntil_line (l rest : List Nat) (h : 10 ∉ l) :
    ∀ n, l.length < n → readBytesUntil 10 n (l ++ 10 :: rest) = (l, rest) := by
  induction l with
  | nil =>
    intro n hn
    cases n with
    | zero => simp at hn
    | succ n => simp [readBytesUntil]
  | cons a l ih =>
    intro n hn
    have ha : a ≠ 10 := fun e => h (by simp [e])
    have hl : 10 ∉ l := fun e => h (by simp [e])
    cases n with
    | zero => simp at hn
    | succ n =>
      have hn1 : l.length < n := by simpa using hn
      simp [readBytesUntil, ha, ih hl n hn1]

theorem readBytesUntil_length_le (t : Nat) :
    ∀ n rx, (readBytesUntil t n rx).1.length ≤ n := by
  intro n
  induction n with
  | zero => intro rx; simp [readBytesUntil]
  | succ n ih =>
    intro rx
    cases rx with
    | nil => simp [readBytesUntil]
    | cons c rx =>
      by_cases hc : c = t
      · simp [readBytesUntil, hc]
      · simpa [readBytesUntil, hc] using ih rx

theorem readBytesUntil_rest_le (t : Nat) :
    ∀ n rx, (readBytesUntil t n rx).2.length ≤ rx.length := by
  intro n
  induction n with
  | zero => intro rx; simp [readBytesUntil]
  | succ n ih =>
    intro rx
    cases rx with
    | nil => simp [readBytesUntil]
    | cons c rx =>
      by_cases hc : c = t
      · simp [readBytesUntil, hc]
      · have := ih rx
        simp only [readBytesUntil, hc, if_false, List.length_cons]
        omega

theorem readBytesUntil_rest_lt (t n : Nat) (c : Nat) (rx : List Nat) :
    (readBytesUntil t (n + 1) (c :: rx)).2.length < (c :: rx).length := by
  by_cases hc : c = t
  · simp [readBytesUntil, hc]
  · have := readBytesUntil_rest_le t n rx
    simp only [readBytesUntil, hc, if_false, List.length_cons]
    omega

theorem store_memset (buf l : List Nat) (h : l.length ≤ DATA_BUFSIZE) :
    store (memset buf 0 DATA_BUFSIZE) l
      = l ++ (List.replicate (DATA_BUFSIZE - l.length) 0 ++ buf.drop DATA_BUFSIZE) := by
  unfold store memset
  rw [List.drop_append_of_le_length (by simpa using h)]
  simp

theorem memset_store_memset (buf l : List Nat) (h : l.length ≤ DATA_BUFSIZE) :
    memset (store (memset buf 0 DATA_BUFSIZE) l) 0 DATA_BUFSIZE = memset buf 0 DATA_BUFSIZE := by
  rw [store_memset buf l h]
  unfold memset
  congr 1
  rw [← List.append_assoc, List.drop_append_eq_append_drop]
  have hlen : (l ++ List.replicate (DATA_BUFSIZE - l.length) 0).length = DATA_BUFSIZE := by
    simp; omega
  rw [List.drop_of_length_le (by omega), hlen]
  simp

/-- The block after it has been cleared and a text line has been read into it: the line, its
terminator, and behind it zero bytes up to `DATA_BUFSIZE` and the old contents from there. -/
theorem store_memset_textLine (buf l : List Nat) (h : TextLine l) :
    store (memset buf 0 DATA_BUFSIZE) l
      = l ++ 0 :: (List.replicate (DATA_BUFSIZE - 1 - l.length) 0 ++ buf.drop DATA_BUFSIZE) := by
  obtain ⟨_, _, hlen⟩ := h
  rw [store_memset buf l (by omega)]
  have hm : DATA_BUFSIZE - l.length = (DATA_BUFSIZE - 1 - l.length) + 1 := by omega
  rw [hm, List.replicate_succ, List.cons_append]

theorem cstr_store_memset (buf l : List Nat) (h : TextLine l) :
    cstr (store (memset buf 0 DATA_BUFSIZE) l) = l := by
  rw [store_memset_textLine buf l h]
  exact cstr_append_zero l _ h.1

/-! ## The read loop -/

/-- The loop has left its `while` condition false once it has had as many iterations as the
response has bytes: `requestObservations` returns. -/
theorem scanLoop_connected (index : Nat) :
    ∀ (fuel : Nat) (s : ScanState), s.client.rx.length ≤ fuel →
      (scanLoop index fuel s).client.connected = false := by
  intro fuel
  induction fuel with
  | zero =>
    intro s h
    have : s.client.rx = [] := List.length_eq_zero.mp (by omega)
    simp [scanLoop, WiFiClient.connected, this]
  | succ fuel ih =>
    intro s h
    unfold scanLoop
    by_cases hc : s.client.connected = true
    · rw [if_pos hc]
      have hrx : s.client.rx ≠ [] := by
        intro e
        simp [WiFiClient.connected, e] at hc
      have hav : s.client.available ≠ 0 := by
        simpa [WiFiClient.available] using hrx
      rw [if_pos hav]
      apply ih
      obtain ⟨c, rx, hcons⟩ := List.exists_cons_of_ne_nil hrx
      have hlt := readBytesUntil_rest_lt 10 (DATA_BUFSIZE - 1) c rx
      have hB : DATA_BUFSIZE - 1 + 1 = DATA_BUFSIZE := rfl
      rw [hB, ← hcons] at hlt
      have key : (scanBody index s).client.rx.length
          ≤ (readBytesUntil 10 DATA_BUFSIZE s.client.rx).2.length := by
        unfold scanBody
        simp only [WiFiClient.readBytesUntil]
        split_ifs <;> simp [WiFiClient.stop]
      omega
    · rw [if_neg hc]
      simpa using hc

theorem scanBody_tx (index : Nat) (s : ScanState) :
    (scanBody index s).client.tx = s.client.tx := by
  unfold scanBody
  simp only [WiFiClient.readBytesUntil]
  split_ifs <;> rfl

/-- The read loop writes nothing. -/
theorem scanLoop_tx (index : Nat) :
    ∀ (fuel : Nat) (s : ScanState), (scanLoop index fuel s).client.tx = s.client.tx := by
  intro fuel
  induction fuel with
  | zero => intro s; rfl
  | succ fuel ih =>
    intro s
    unfold scanLoop
    split_ifs
    · rw [ih, scanBody_tx]
    · exact ih s
    · rfl

theorem scanLoop_of_not_connected (index fuel : Nat) (s : ScanState)
    (h : s.client.connected = false) : scanLoop index fuel s = s := by
  cases fuel with
  | zero => rfl
  | succ fuel => simp [scanLoop, h]

theorem wire_cons (l : List Nat) (ls : List (List Nat)) :
    wire (l :: ls) = l ++ 10 :: wire ls := by
  simp [wire]

theorem wire_append (xs ys : List (List Nat)) : wire (xs ++ ys) = wire xs ++ wire ys := by
  simp [wire]

theorem length_le_length_wire (lines : List (List Nat)) : lines.length ≤ (wire lines).length := by
  induction lines with
  | nil => simp
  | cons l ls ih =>
    rw [wire_cons]
    simp only [List.length_cons, List.length_append]
    omega

/-- One pass through the loop body when the next line of the response is the text line `l`. -/
theorem scanBody_line (index : Nat) (s : ScanState) (l rest : List Nat) (hl : TextLine l)
    (hrx : s.client.rx = l ++ 10 :: rest) :
    scanBody index s =
      { client :=
          if s.i_line
              = (if l = DATA_HEADER then (s.i_line + DATA_OFFSET) % 65536 else s.i_field) + index
          then ({ s.client with rx := rest, nreads := s.client.nreads + 1 } : WiFiClient).stop
          else { s.client with rx := rest, nreads := s.client.nreads + 1 },
        observations := store (memset s.observations 0 DATA_BUFSIZE) l,
        i_line := (s.i_line + 1) % 65536,
        i_field := if l = DATA_HEADER then (s.i_line + DATA_OFFSET) % 65536 else s.i_field } := by
  have hcmp : (strcmp (store (memset s.observations 0 DATA_BUFSIZE) l) DATA_HEADER = 0)
      ↔ l = DATA_HEADER := by
    unfold strcmp
    rw [cstr_store_memset _ l hl]
    split_ifs with h <;> simp [h]
  unfold scanBody
  simp only [WiFiClient.readBytesUntil, hrx,
    readBytesUntil_line l rest hl.2.1 DATA_BUFSIZE hl.2.2, hcmp]

/-- The read loop on a response made of text lines does what `scanLines` does with the
counters: it makes `nread` reads, calls `stop` exactly when `stopped` is set, and the buffer
then holds the last line read behind a zero-filled rest. -/
theorem scanLoop_wire (index : Nat) :
    ∀ (lines : List (List Nat)) (fuel : Nat) (s : ScanState),
      (∀ l ∈ lines, TextLine l) → s.client.established = true → s.client.rx = wire lines →
      lines.length ≤ fuel →
      (scanLoop index fuel s).client
          = { s.client with
              established := !(scanLines index lines s.i_line s.i_field).stopped,
              rx := [],
              nreads := s.client.nreads + (scanLines index lines s.i_line s.i_field).nread,
              stopped := s.client.stopped || (scanLines index lines s.i_line s.i_field).stopped }
        ∧ (scanLoop index fuel s).observations
          = (match (scanLines index lines s.i_line s.i_field).last with
             | none => s.observations
             | some l => store (memset s.observations 0 DATA_BUFSIZE) l) := by
  intro lines
  induction lines with
  | nil =>
    intro fuel s _ hest hrx _
    have hrx0 : s.client.rx = [] := by simpa [wire] using hrx
    have hnc : s.client.connected = false := by simp [WiFiClient.connected, hrx0]
    rw [scanLoop_of_not_connected index fuel s hnc]
    refine ⟨?_, rfl⟩
    cases hs : s.client
    simp [hs] at hest hrx0
    simp [scanLines, hest, hrx0]
  | cons l ls ih =>
    intro fuel s hwf hest hrx hfuel
    have hl : TextLine l := hwf l (by simp)
    have hls : ∀ x ∈ ls, TextLine x := fun x hx => hwf x (by simp [hx])
    rw [wire_cons] at hrx
    obtain ⟨fuel, rfl⟩ : ∃ f, fuel = f + 1 := ⟨fuel - 1, by simp at hfuel; omega⟩
    have hfuel1 : ls.length ≤ fuel := by simpa using hfuel
    have hconn : s.client.connected = true := by simp [WiFiClient.connected, hest, hrx]
    have hav : s.client.available ≠ 0 := by simp [WiFiClient.available, hrx]
    have hstep : scanLoop index (fuel + 1) s = scanLoop index fuel (scanBody index s) := by
      simp [scanLoop, hconn, hav]
    rw [hstep, scanBody_line index s l (wire ls) hl hrx]
    by_cases hstop :
        s.i_line = (if l = DATA_HEADER then (s.i_line + DATA_OFFSET) % 65536 else s.i_field) + index
    · rw [if_pos hstop, scanLoop_of_not_connected _ _ _ (by simp [WiFiClient.connected, WiFiClient.stop])]
      have hr : scanLines index (l :: ls) s.i_line s.i_field
          = { nread := 1, stopped := true, last := some l } := by
        simp only [scanLines]
        rw [if_pos hstop]
      rw [hr]
      simp [WiFiClient.stop]
    · rw [if_neg hstop]
      have hr : scanLines index (l :: ls) s.i_line s.i_field
          = { nread := (scanLines index ls ((s.i_line + 1) % 65536)
                (if l = DATA_HEADER then (s.i_line + DATA_OFFSET) % 65536 else s.i_field)).nread + 1,
              stopped := (scanLines index ls ((s.i_line + 1) % 65536)
                (if l = DATA_HEADER then (s.i_line + DATA_OFFSET) % 65536 else s.i_field)).stopped,
              last := some ((scanLines index ls ((s.i_line + 1) % 65536)
                (if l = DATA_HEADER then (s.i_line + DATA_OFFSET) % 65536 else s.i_field)).last.getD l) } := by
        simp only [scanLines]
        rw [if_neg hstop]
      rw [hr]
      obtain ⟨h1, h2⟩ := ih fuel
        { client := { s.client with rx := wire ls, nreads := s.client.nreads + 1 },
          observations := store (memset s.observations 0 DATA_BUFSIZE) l,
          i_line := (s.i_line + 1) % 65536,
          i_field := if l = DATA_HEADER then (s.i_line + DATA_OFFSET) % 65536 else s.i_field }
        hls hest rfl hfuel1
      simp only at h1 h2
      rw [h1, h2]
      refine ⟨?_, ?_⟩
      · simp [Nat.add_assoc, Nat.add_comm]
      · cases (scanLines index ls ((s.i_line + 1) % 65536)
            (if l = DATA_HEADER then (s.i_line + DATA_OFFSET) % 65536 else s.i_field)).last with
        | none => simp
        | some l1 =>
          simp only [Option.getD_some]
          rw [memset_store_memset _ l (by have := hl.2.2; omega)]

theorem scanLines_last_mem (index : Nat) :
    ∀ (lines : List (List Nat)) (i f : Nat) (x : List Nat),
      (scanLines index lines i f).last = some x → x ∈ lines := by
  intro lines
  induction lines with
  | nil => intro i f x h; simp [scanLines] at h
  | cons a ls ih =>
    intro i f x h
    simp only [scanLines] at h
    generalize (if a = DATA_HEADER then (i + DATA_OFFSET) % 65536 else f) = f1 at h
    by_cases hs : i = f1 + index
    · rw [if_pos hs] at h
      simp only [Option.some.injEq] at h
      simp [h]
    · rw [if_neg hs] at h
      simp only [Option.some.injEq] at h
      cases hr : (scanLines index ls ((i + 1) % 65536) f1).last with
      | none =>
        rw [hr] at h
        simp only [Option.getD_none] at h
        simp [h]
      | some l1 =>
        rw [hr] at h
        simp only [Option.getD_some] at h
        subst h
        exact List.mem_cons_of_mem _ (ih _ _ _ hr)

theorem scanLines_cons (index : Nat) (l : List Nat) (ls : List (List Nat)) (i f : Nat) :
    scanLines index (l :: ls) i f
      = if i = (if l = DATA_HEADER then (i + DATA_OFFSET) % 65536 else f) + index
        then { nread := 1, stopped := true, last := some l }
        else
          { nread := (scanLines index ls ((i + 1) % 65536)
              (if l = DATA_HEADER then (i + DATA_OFFSET) % 65536 else f)).nread + 1,
            stopped := (scanLines index ls ((i + 1) % 65536)
              (if l = DATA_HEADER then (i + DATA_OFFSET) % 65536 else f)).stopped,
            last := some ((scanLines index ls ((i + 1) % 65536)
              (if l = DATA_HEADER then (i + DATA_OFFSET) % 65536 else f)).last.getD l) } := rfl

/-- Lines that are not the marker and do not hit the stop test are read one after the other
with `i_field` unchanged. -/
theorem scanLines_skip (index : Nat) :
    ∀ (pre rest : List (List Nat)) (i f : Nat), DATA_HEADER ∉ pre → i < 65536 →
      (∀ j, j < pre.length → (i + j) % 65536 ≠ f + index) →
      scanLines index (pre ++ rest) i f
        = { nread := pre.length + (scanLines index rest ((i + pre.length) % 65536) f).nread,
            stopped := (scanLines index rest ((i + pre.length) % 65536) f).stopped,
            last := ((scanLines index rest ((i + pre.length) % 65536) f).last).or
              pre.getLast? } := by
  intro pre
  induction pre with
  | nil =>
    intro rest i f _ hi _
    simp only [List.nil_append, List.length_nil, Nat.add_zero, Nat.zero_add,
      Nat.mod_eq_of_lt hi, List.getLast?_nil, Option.or_none]
  | cons a pre ih =>
    intro rest i f hpre hi hns
    have ha : a ≠ DATA_HEADER := fun e => hpre (by simp [e])
    have hp : DATA_HEADER ∉ pre := fun e => hpre (by simp [e])
    have h0 : i ≠ f + index := by
      have := hns 0 (by simp)
      rwa [Nat.add_zero, Nat.mod_eq_of_lt hi] at this
    have hnext : ∀ j, j < pre.length → ((i + 1) % 65536 + j) % 65536 ≠ f + index := by
      intro j hj
      have := hns (j + 1) (by simp; omega)
      omega
    have hidx : ((i + 1) % 65536 + pre.length) % 65536 = (i + (pre.length + 1)) % 65536 := by
      omega
    rw [List.cons_append, scanLines_cons, if_neg ha, if_neg h0,
      ih rest ((i + 1) % 65536) f hp (Nat.mod_lt _ (by decide)) hnext, hidx]
    simp only [List.length_cons, LineRun.mk.injEq, and_true]
    refine ⟨by omega, ?_⟩
    cases (scanLines index rest ((i + (pre.length + 1)) % 65536) f).last with
    | none => simp [List.getLast?_cons]
    | some x => simp

/-- After a marker line, lines that end before the target line is reached are all read and
the loop does not stop; further marker lines only move the target away.  `d` is the distance
from the last marker line. -/
theorem scanLines_short (index : Nat) (hindex : index < 256) :
    ∀ (post : List (List Nat)) (i f : Nat), f < 65536 →
      (∃ d, 1 ≤ d ∧ d + post.length ≤ DATA_OFFSET + index ∧ i = (f + 65534 + d) % 65536) →
      scanLines index post i f
        = { nread := post.length, stopped := false, last := post.getLast? } := by
  intro post
  induction post with
  | nil => intro i f _ _; rfl
  | cons a post ih =>
    intro i f hf hd
    obtain ⟨d, hd1, hd2, hd3⟩ := hd
    simp only [List.length_cons, DATA_OFFSET] at hd2
    rw [scanLines_cons]
    by_cases ha : a = DATA_HEADER
    · simp only [if_pos ha, DATA_OFFSET]
      have hns : i ≠ (i + 2) % 65536 + index := by omega
      rw [if_neg hns, ih ((i + 1) % 65536) ((i + 2) % 65536) (Nat.mod_lt _ (by decide))
        ⟨1, le_refl 1, by simp only [DATA_OFFSET]; omega, by omega⟩]
      simp [List.getLast?_cons]
    · simp only [if_neg ha]
      have hns : i ≠ f + index := by omega
      rw [if_neg hns, ih ((i + 1) % 65536) f hf
        ⟨d + 1, by omega, by simp only [DATA_OFFSET]; omega, by omega⟩]
      simp [List.getLast?_cons]

theorem sendHttpRequest_fields (c : WiFiClient) (http : httpRequest) :
    (sendHttpRequest c http).1 = c.reachable
      ∧ (sendHttpRequest c http).2.established = c.reachable
      ∧ (sendHttpRequest c http).2.rx = c.rx
      ∧ (sendHttpRequest c http).2.nreads = c.nreads
      ∧ (sendHttpRequest c http).2.stopped = c.stopped := by
  unfold sendHttpRequest
  cases h : c.reachable <;> simp [WiFiClient.connect, WiFiClient.write, h]

/-- The run of `requestObservations` on a reachable peer whose response is text lines, in terms
of the line-level run of the counters. -/
theorem requestObservations_wire (self : BOMObservations) (fresh path : List Nat) (index : Nat)
    (lines : List (List Nat)) (hwf : ∀ l ∈ lines, TextLine l)
    (hreach : self.client.reachable = true) (hrx : self.client.rx = wire lines) :
    (requestObservations self fresh path index).2.client.nreads
        = self.client.nreads + (scanLines index lines 0 0xFFFF).nread
      ∧ (requestObservations self fresh path index).2.client.stopped
        = (self.client.stopped || (scanLines index lines 0 0xFFFF).stopped)
      ∧ capturedLine (requestObservations self fresh path index).2
        = some (match (scanLines index lines 0 0xFFFF).last with
                | none => cstr fresh
                | some l => l) := by
  obtain ⟨_, hest, hrx1, hn, hst⟩ := sendHttpRequest_fields self.client
    { method := HTTP_METHOD_GET, host := HTTP_HOSTNAME, path := path }
  have hlast : ∀ l, (scanLines index lines 0 0xFFFF).last = some l → TextLine l :=
    fun l h => hwf l (scanLines_last_mem index lines 0 0xFFFF l h)
  obtain ⟨h1, h2⟩ := scanLoop_wire index lines
    (sendHttpRequest self.client
      { method := HTTP_METHOD_GET, host := HTTP_HOSTNAME, path := path }).2.rx.length
    { client := (sendHttpRequest self.client
        { method := HTTP_METHOD_GET, host := HTTP_HOSTNAME, path := path }).2,
      observations := fresh, i_line := 0, i_field := 0xFFFF }
    hwf (by rw [hest, hreach]) (by rw [hrx1, hrx])
    (by rw [hrx1, hrx]; exact length_le_length_wire lines)
  simp only at h1 h2
  unfold requestObservations capturedLine
  simp only [h1, h2, hn, hst, Option.map_some', true_and, Option.some.injEq]
  cases hr : (scanLines index lines 0 0xFFFF).last with
  | none => rfl
  | some l => exact cstr_store_memset fresh l (hlast l hr)

/-- The block `_observations` points to after `requestObservations` on a reachable peer whose
response is made of text lines, the last one read being `l`. -/
theorem requestObservations_wire_block (self : BOMObservations) (fresh path : List Nat)
    (index : Nat) (lines : List (List Nat)) (hwf : ∀ l ∈ lines, TextLine l)
    (hreach : self.client.reachable = true) (hrx : self.client.rx = wire lines)
    (l : List Nat) (hl : (scanLines index lines 0 0xFFFF).last = some l) :
    (requestObservations self fresh path index).2.observations
      = some (l ++ 0 ::
          (List.replicate (DATA_BUFSIZE - 1 - l.length) 0 ++ fresh.drop DATA_BUFSIZE)) := by
  obtain ⟨_, hest, hrx1, _, _⟩ := sendHttpRequest_fields self.client
    { method := HTTP_METHOD_GET, host := HTTP_HOSTNAME, path := path }
  obtain ⟨_, h2⟩ := scanLoop_wire index lines
    (sendHttpRequest self.client
      { method := HTTP_METHOD_GET, host := HTTP_HOSTNAME, path := path }).2.rx.length
    { client := (sendHttpRequest self.client
        { method := HTTP_METHOD_GET, host := HTTP_HOSTNAME, path := path }).2,
      observations := fresh, i_line := 0, i_field := 0xFFFF }
    hwf (by rw [hest, hreach]) (by rw [hrx1, hrx])
    (by rw [hrx1, hrx]; exact length_le_length_wire lines)
  simp only [hl] at h2
  unfold requestObservations
  simp only [h2, Option.some.injEq]
  exact store_memset_textLine fresh l (hwf l (scanLines_last_mem index lines 0 0xFFFF l hl))

theorem getItemAt_congr (a : BOMObservations) (obs : List Nat) (index : Nat)
    (h : a.observations = some obs) :
    getItemAt a index = getItemAt { client := a.client, observations := some obs } index := by
  unfold getItemAt
  rw [h]

/-- The counters on a response without a marker line: every line is read and the loop does
not stop, unless the row offset is 0 and line 65535 is reached. -/
theorem scanLines_no_marker (index : Nat) (lines : List (List Nat))
    (hno : DATA_HEADER ∉ lines) (hsent : index = 0 → lines.length ≤ 65535) :
    scanLines index lines 0 0xFFFF
      = { nread := lines.length, stopped := false, last := lines.getLast? } := by
  have h := scanLines_skip index lines [] 0 0xFFFF hno (by decide) (fun j hj => by omega)
  rw [List.append_nil] at h
  rw [h]
  simp [scanLines]

/-- The counters on a response whose first marker line has `pre` before it, is followed by
`DATA_OFFSET - 1 + index` lines that are not the marker and then by a line `target` that is
not the marker either. -/
theorem scanLines_target (index : Nat) (pre mid post : List (List Nat)) (target : List Nat)
    (hpre : DATA_HEADER ∉ pre) (hmid : DATA_HEADER ∉ mid) (htgt : target ≠ DATA_HEADER)
    (hmidlen : mid.length + 1 = DATA_OFFSET + index)
    (hbound : pre.length + DATA_OFFSET + index < 65536) :
    scanLines index (pre ++ DATA_HEADER :: (mid ++ target :: post)) 0 0xFFFF
      = { nread := pre.length + DATA_OFFSET + index + 1, stopped := true,
          last := some target } := by
  simp only [DATA_OFFSET] at hmidlen hbound
  have hk : (0 + pre.length) % 65536 = pre.length := by omega
  have hk1 : (pre.length + 1) % 65536 = pre.length + 1 := by omega
  have hk2 : (pre.length + DATA_OFFSET) % 65536 = pre.length + 2 := by
    simp only [DATA_OFFSET]; omega
  have hk3 : (pre.length + 1 + mid.length) % 65536 = pre.length + 2 + index := by omega
  rw [scanLines_skip index pre _ 0 0xFFFF hpre (by decide) (fun j hj => by omega), hk,
    scanLines_cons, if_pos rfl, hk1, hk2,
    if_neg (by omega : ¬ pre.length = pre.length + 2 + index),
    scanLines_skip index mid _ (pre.length + 1) (pre.length + 2) hmid (by omega)
      (fun j hj => by omega), hk3,
    scanLines_cons, if_neg htgt, if_pos rfl]
  simp only [DATA_OFFSET, LineRun.mk.injEq, Option.getD_some, Option.or_some, and_self,
    and_true]
  clear hk2
  omega

/-- The counters on a response whose first marker line has `pre` before it and fewer than
`DATA_OFFSET + index` lines after it. -/
theorem scanLines_ends_early (index : Nat) (pre post : List (List Nat))
    (hpre : DATA_HEADER ∉ pre) (hshort : post.length < DATA_OFFSET + index)
    (hindex : index < 256) (hsent : index = 0 → pre.length ≤ 65535) :
    scanLines index (pre ++ DATA_HEADER :: post) 0 0xFFFF
      = { nread := pre.length + 1 + post.length, stopped := false,
          last := (DATA_HEADER :: post).getLast? } := by
  have hns : ¬ (0 + pre.length) % 65536
      = ((0 + pre.length) % 65536 + DATA_OFFSET) % 65536 + index := by
    simp only [DATA_OFFSET]; omega
  rw [scanLines_skip index pre _ 0 0xFFFF hpre (by decide) (fun j hj => by omega),
    scanLines_cons, if_pos rfl, if_neg hns,
    scanLines_short index hindex post _ _ (Nat.mod_lt _ (by decide))
      ⟨1, le_refl 1, by omega, by simp only [DATA_OFFSET]; omega⟩]
  simp only [LineRun.mk.injEq, List.getLast?_cons, Option.or_some, and_self, and_true]
  clear hns hshort
  omega

/-- The counters on 65536 empty lines followed by one more line, with row offset 0: line
65535 meets the initial value of `i_field`. -/
theorem scanLines_sentinel (x : List Nat) (n : Nat) (hn : n = 65535) :
    scanLines 0 (List.replicate (n + 1) [] ++ [x]) 0 0xFFFF
      = { nread := n + 1, stopped := true, last := some [] } := by
  have hpre : DATA_HEADER ∉ List.replicate n ([] : List Nat) := by
    intro h
    exact absurd (List.eq_of_mem_replicate h) (by decide)
  have hk : (0 + (List.replicate n ([] : List Nat)).length) % 65536 = 65535 := by
    rw [List.length_replicate]; omega
  rw [List.replicate_succ', List.append_assoc,
    scanLines_skip 0 (List.replicate n []) _ 0 0xFFFF hpre (by decide)
      (fun j hj => by rw [List.length_replicate] at hj; omega), hk,
    List.singleton_append, scanLines_cons,
    if_neg (by decide : ¬ ([] : List Nat) = DATA_HEADER), if_pos rfl]
  simp [List.length_replicate]

/-! ## The scan: claims C1, C5 to C9 -/

/-- C1 (as stated, refuted): the response `[data]`, `[data]`, `a`, `b` has the marker line at
index 0 and provides the three lines the claim asks for with row offset 0, but the loop does
not stop after line 2: the second marker line moves the target, four lines are read and the
captured line is `b`, not line 2. -/
theorem requestObservations_two_markers :
    twoMarkerLines[0]? = some DATA_HEADER
      ∧ 0 + DATA_OFFSET + 0 + 1 ≤ twoMarkerLines.length
      ∧ (requestObservations (sampleObject true twoMarkerLines) sampleBlock (bytes "/") 0).2.client.nreads
          = 4
      ∧ capturedLine (requestObservations (sampleObject true twoMarkerLines) sampleBlock (bytes "/") 0).2
          = some (bytes "b")
      ∧ capturedLine (requestObservations (sampleObject true twoMarkerLines) sampleBlock (bytes "/") 0).2
          ≠ twoMarkerLines[0 + DATA_OFFSET + 0]? := by
  decide

/-- C1 (amended): when the first marker line of the response is at index `k = pre.length`, no
line among the next `DATA_OFFSET + index` lines is the marker, the response has the line
`k + DATA_OFFSET + index` (`target`), and `k + DATA_OFFSET + index` is below 65536, then
`requestObservations` calls `stop` after exactly `k + DATA_OFFSET + index + 1` reads, and the
captured line is `target`. -/
theorem requestObservations_stops_at_target (self : BOMObservations) (fresh path : List Nat)
    (index : Nat) (pre mid post : List (List Nat)) (target : List Nat)
    (hreach : self.client.reachable = true)
    (hrx : self.client.rx = wire (pre ++ DATA_HEADER :: (mid ++ target :: post)))
    (hwf : ∀ l ∈ pre ++ DATA_HEADER :: (mid ++ target :: post), TextLine l)
    (hpre : DATA_HEADER ∉ pre) (hmid : DATA_HEADER ∉ mid) (htgt : target ≠ DATA_HEADER)
    (hmidlen : mid.length + 1 = DATA_OFFSET + index)
    (hbound : pre.length + DATA_OFFSET + index < 65536) :
    (requestObservations self fresh path index).2.client.stopped = true
      ∧ (requestObservations self fresh path index).2.client.nreads
          = self.client.nreads + (pre.length + DATA_OFFSET + index + 1)
      ∧ capturedLine (requestObservations self fresh path index).2 = some target := by
  obtain ⟨h1, h2, h3⟩ := requestObservations_wire self fresh path index _ hwf hreach hrx
  rw [scanLines_target index pre mid post target hpre hmid htgt hmidlen hbound] at h1 h2 h3
  exact ⟨by rw [h2]; simp, h1, h3⟩

/-- C1 (amended), at the sample response with row offset 1: the marker line is line 1, the
loop stops after reading line 4 and captures `1,2,3`. -/
theorem requestObservations_stops_at_target_witness :
    (requestObservations (sampleObject true sampleLines) sampleBlock (bytes "/") 1).2.client.stopped
        = true
      ∧ (requestObservations (sampleObject true sampleLines) sampleBlock (bytes "/") 1).2.client.nreads
        = 0 + (1 + DATA_OFFSET + 1 + 1)
      ∧ capturedLine (requestObservations (sampleObject true sampleLines) sampleBlock (bytes "/") 1).2
        = some (bytes "1,2,3") :=
  requestObservations_stops_at_target (sampleObject true sampleLines) sampleBlock (bytes "/") 1
    [bytes "foo"] [bytes "skip1", bytes "skip2"] [] (bytes "1,2,3")
    rfl rfl (by decide) (by decide) (by decide) (by decide) (by decide) (by decide)

/-- C5: `requestObservations` returns the outcome of `connect(host, 80)`, whatever the path,
the row offset, the block handed out by `malloc` and the response: replacing the response by
any other one does not change the returned value. -/
theorem requestObservations_returns_connect (self : BOMObservations) (fresh path : List Nat)
    (index : Nat) :
    (requestObservations self fresh path index).1 = (self.client.connect HTTP_HOSTNAME 80).1
      ∧ ∀ (rx : List Nat) (fresh1 : List Nat) (index1 : Nat),
          (requestObservations { self with client := { self.client with rx := rx } }
              fresh1 path index1).1
            = (requestObservations self fresh path index).1 := by
  refine ⟨?_, fun rx fresh1 index1 => ?_⟩
  · exact (sendHttpRequest_fields self.client _).1
  · unfold requestObservations
    simp only [(sendHttpRequest_fields _ _).1]

/-- C6: after `sendHttpRequest` for the request that `requestObservations` builds, the bytes
written to the client are, in this order, the request line, the `Host`, `Connection` and
`User-Agent` headers and an empty line when `connect` succeeds, and nothing when it
fails; the rest of `requestObservations` writes nothing more. -/
theorem sendHttpRequest_writes (c : WiFiClient) (path : List Nat) :
    (sendHttpRequest c { method := HTTP_METHOD_GET, host := HTTP_HOSTNAME, path := path }).2.tx
        = (if (c.connect HTTP_HOSTNAME 80).1 then
            c.tx ++ (bytes "GET " ++ path ++ bytes " HTTP/1.1" ++ CRLF)
              ++ (bytes "Host: www.bom.gov.au" ++ CRLF)
              ++ (bytes "Connection: close" ++ CRLF)
              ++ (bytes "User-Agent: ESP8266" ++ CRLF)
              ++ CRLF
          else c.tx)
      ∧ ∀ (observations : Option (List Nat)) (fresh : List Nat) (index : Nat),
          (requestObservations { client := c, observations := observations }
              fresh path index).2.client.tx
            = (sendHttpRequest c
                { method := HTTP_METHOD_GET, host := HTTP_HOSTNAME, path := path }).2.tx := by
  refine ⟨?_, fun observations fresh index => scanLoop_tx index _ _⟩
  unfold sendHttpRequest
  cases h : c.reachable
  · simp [WiFiClient.connect, h]
  · simp only [WiFiClient.connect, h, WiFiClient.write, if_true]
    have e1 : HTTP_METHOD_GET ++ bytes " " = bytes "GET " := by decide
    have e2 : bytes "Host: " ++ HTTP_HOSTNAME = bytes "Host: www.bom.gov.au" := by decide
    have e3 : bytes "Connection: " ++ HTTP_CONNECTION = bytes "Connection: close" := by decide
    have e4 : bytes "User-Agent: " ++ HTTP_USER_AGENT = bytes "User-Agent: ESP8266" := by decide
    rw [e1, e2, e3, e4]

/-- C7 (the code at the failing input): no line of the 65537-line response `longLines` is the
marker and the row offset is 0, yet `requestObservations` calls `stop` itself after 65536
reads, when `i_line` reaches the initial value `0xFFFF` of `i_field`; the last line is never
read and the captured line is the empty line 65535. -/
theorem requestObservations_sentinel_collision :
    (∀ l ∈ longLines, l ≠ DATA_HEADER)
      ∧ (requestObservations (sampleObject true longLines) sampleBlock (bytes "/") 0).2.client.stopped
          = true
      ∧ (requestObservations (sampleObject true longLines) sampleBlock (bytes "/") 0).2.client.nreads
          = 65536
      ∧ capturedLine (requestObservations (sampleObject true longLines) sampleBlock (bytes "/") 0).2
          = some []
      ∧ longLines.getLast? = some (bytes "x") := by
  have hmem : ∀ l ∈ longLines, l = [] ∨ l = bytes "x" := by
    intro l hl
    unfold longLines at hl
    rcases List.mem_append.mp hl with h | h
    · exact Or.inl (List.eq_of_mem_replicate h)
    · exact Or.inr (by simpa using h)
  have hwf : ∀ l ∈ longLines, TextLine l := by
    intro l hl
    rcases hmem l hl with h | h <;> subst h <;> decide
  obtain ⟨h1, h2, h3⟩ := requestObservations_wire (sampleObject true longLines) sampleBlock
    (bytes "/") 0 longLines hwf rfl rfl
  have hrun : scanLines 0 longLines 0 0xFFFF
      = { nread := 65536, stopped := true, last := some [] } :=
    scanLines_sentinel (bytes "x") 65535 rfl
  rw [hrun] at h1 h2 h3
  refine ⟨?_, by rw [h2]; rfl, by rw [h1]; rfl, h3, ?_⟩
  · intro l hl
    rcases hmem l hl with h | h <;> subst h <;> decide
  · unfold longLines
    rw [List.getLast?_append]
    rfl

/-- Supporting fact for C7: on a response of text lines none of which is the marker,
`requestObservations` does not call `stop`, reads every line and captures the last one,
provided the row offset is not 0 or the response has at most 65535 lines. -/
theorem requestObservations_no_marker (self : BOMObservations) (fresh path : List Nat)
    (index : Nat) (lines : List (List Nat))
    (hreach : self.client.reachable = true) (hrx : self.client.rx = wire lines)
    (hwf : ∀ l ∈ lines, TextLine l) (hno : DATA_HEADER ∉ lines) (hne : lines ≠ [])
    (hsent : index = 0 → lines.length ≤ 65535) :
    (requestObservations self fresh path index).2.client.stopped = self.client.stopped
      ∧ (requestObservations self fresh path index).2.client.nreads
          = self.client.nreads + lines.length
      ∧ capturedLine (requestObservations self fresh path index).2 = lines.getLast? := by
  obtain ⟨h1, h2, h3⟩ := requestObservations_wire self fresh path index _ hwf hreach hrx
  rw [scanLines_no_marker index lines hno hsent] at h1 h2 h3
  refine ⟨by rw [h2]; simp, h1, ?_⟩
  rw [h3]
  cases hl : lines.getLast? with
  | none => exact absurd (List.getLast?_eq_none_iff.mp hl) hne
  | some l => rfl

/-- C8 (as stated, refuted): the response `[data]`, `a`, `b`, `[data]` has a marker line at
index 3 and fewer than `3 + DATA_OFFSET + 0 + 1` lines, but with row offset 0 the loop is
ended by its own `stop` after three reads (the target row of the marker line at index 0), and
the captured line is `b`, not the last line received. -/
theorem requestObservations_late_marker :
    lateMarkerLines[3]? = some DATA_HEADER
      ∧ lateMarkerLines.length < 3 + DATA_OFFSET + 0 + 1
      ∧ (requestObservations (sampleObject true lateMarkerLines) sampleBlock (bytes "/") 0).2.client.stopped
          = true
      ∧ (requestObservations (sampleObject true lateMarkerLines) sampleBlock (bytes "/") 0).2.client.nreads
          = 3
      ∧ capturedLine (requestObservations (sampleObject true lateMarkerLines) sampleBlock (bytes "/") 0).2
          ≠ lateMarkerLines.getLast? := by
  decide

/-- C8 (amended): when the first marker line of the response is at index `k = pre.length` and
the response has fewer than `k + DATA_OFFSET + index + 1` lines (with `k ≤ 65535` when the
row offset is 0), `requestObservations` does not call `stop`: it reads every line of the
response, the loop ends because the peer has closed, and the captured line is the last line
received. -/
theorem requestObservations_ends_early (self : BOMObservations) (fresh path : List Nat)
    (index : Nat) (pre post : List (List Nat))
    (hreach : self.client.reachable = true)
    (hrx : self.client.rx = wire (pre ++ DATA_HEADER :: post))
    (hwf : ∀ l ∈ pre ++ DATA_HEADER :: post, TextLine l)
    (hpre : DATA_HEADER ∉ pre)
    (hshort : (pre ++ DATA_HEADER :: post).length < pre.length + DATA_OFFSET + index + 1)
    (hindex : index < 256) (hsent : index = 0 → pre.length ≤ 65535) :
    (requestObservations self fresh path index).2.client.stopped = self.client.stopped
      ∧ (requestObservations self fresh path index).2.client.nreads
          = self.client.nreads + (pre ++ DATA_HEADER :: post).length
      ∧ (requestObservations self fresh path index).2.client.connected = false
      ∧ capturedLine (requestObservations self fresh path index).2
          = (pre ++ DATA_HEADER :: post).getLast? := by
  have hshort1 : post.length < DATA_OFFSET + index := by
    simp only [List.length_append, List.length_cons] at hshort
    omega
  obtain ⟨h1, h2, h3⟩ := requestObservations_wire self fresh path index _ hwf hreach hrx
  rw [scanLines_ends_early index pre post hpre hshort1 hindex hsent] at h1 h2 h3
  refine ⟨by rw [h2]; simp, ?_, ?_, ?_⟩
  · rw [h1]
    simp only [List.length_append, List.length_cons]
    omega
  · exact scanLoop_connected index _ _ (le_refl _)
  · rw [h3, List.getLast?_append]
    simp [List.getLast?_cons]

/-- C8 (amended), at the sample response with row offset 2: the target row would be line 5,
the response ends with line 4, all five lines are read without a `stop` and the captured line
is `1,2,3`. -/
theorem requestObservations_ends_early_witness :
    (requestObservations (sampleObject true sampleLines) sampleBlock (bytes "/") 2).2.client.stopped
        = false
      ∧ (requestObservations (sampleObject true sampleLines) sampleBlock (bytes "/") 2).2.client.nreads
        = 0 + 5
      ∧ (requestObservations (sampleObject true sampleLines) sampleBlock (bytes "/") 2).2.client.connected
        = false
      ∧ capturedLine (requestObservations (sampleObject true sampleLines) sampleBlock (bytes "/") 2).2
        = some (bytes "1,2,3") :=
  requestObservations_ends_early (sampleObject true sampleLines) sampleBlock (bytes "/") 2
    [bytes "foo"] [bytes "skip1", bytes "skip2", bytes "1,2,3"]
    rfl rfl (by decide) (by decide) (by decide) (by decide) (by decide)

/-- C9 (as stated, refuted): on the sample response with row offset 0 the captured line is
not `skip1`. -/
theorem requestObservations_sample_not_skip1 :
    capturedLine (requestObservations (sampleObject true sampleLines) sampleBlock (bytes "/") 0).2
      ≠ some (bytes "skip1") := by
  decide

/-- C9 (amended): on the sample response `foo`, `[data]`, `skip1`, `skip2`, `1,2,3` with row
offset 0 the loop stops after reading line `1 + DATA_OFFSET = 3`, and the captured line is
`skip2`, for every path and every block handed out by `malloc`. -/
theorem requestObservations_sample_skip2 (fresh path : List Nat) :
    capturedLine (requestObservations (sampleObject true sampleLines) fresh path 0).2
        = some (bytes "skip2")
      ∧ (requestObservations (sampleObject true sampleLines) fresh path 0).2.client.stopped = true
      ∧ (requestObservations (sampleObject true sampleLines) fresh path 0).2.client.nreads
        = 1 + DATA_OFFSET + 1 := by
  obtain ⟨h1, h2, h3⟩ := requestObservations_wire (sampleObject true sampleLines) fresh path 0
    sampleLines (by decide) rfl rfl
  have hrun : scanLines 0 sampleLines 0 0xFFFF
      = { nread := 4, stopped := true, last := some (bytes "skip2") } := by decide
  rw [hrun] at h1 h2 h3
  exact ⟨h3, by rw [h2]; rfl, by rw [h1]; rfl⟩

/-! ## Item extraction -/

theorem delimited_cons (f : List Nat) (fs : List (List Nat)) :
    delimited (f :: fs) = f ++ DATA_DELIM :: delimited fs := by
  simp [delimited]

theorem getItemAt_eq_itemLoop (c : WiFiClient) (line rest : List Nat) (index : Nat)
    (h0 : 0 ∉ line) (hlen : line.length < 65536) :
    getItemAt { client := c, observations := some (line ++ 0 :: rest) } index
      = itemLoop (line ++ 0 :: rest) index line 0 0 0 := by
  have hmem : (0 : Nat) ∈ line ++ 0 :: rest := by simp
  have hn : ¬ 65536 ≤ line.length := by omega
  simp only [getItemAt, strlen, if_pos hmem, cstr_append_zero line rest h0, if_neg hn]

theorem itemLoop_cons (obs : List Nat) (index c : Nat) (cs : List Nat)
    (i i_index i_delim_prev : Nat) :
    itemLoop obs index (c :: cs) i i_index i_delim_prev
      = if c = DATA_DELIM then
          if index = i_index then copyItem obs i_delim_prev i
          else itemLoop obs index cs ((i + 1) % 65536) ((i_index + 1) % 65536) ((i + 1) % 65536)
        else itemLoop obs index cs ((i + 1) % 65536) i_index i_delim_prev := rfl

/-- The loop returns the null pointer when the text still to be visited has too few
delimiters for the requested item. -/
theorem itemLoop_null (obs : List Nat) (index : Nat) :
    ∀ (cs : List Nat) (i i_index i_delim_prev : Nat),
      cs.count DATA_DELIM + i_index ≤ index →
      itemLoop obs index cs i i_index i_delim_prev = .ok none := by
  intro cs
  induction cs with
  | nil => intro i i_index i_delim_prev _; rfl
  | cons a cs ih =>
    intro i i_index i_delim_prev h
    by_cases ha : a = DATA_DELIM
    · subst ha
      simp only [List.count_cons_self] at h
      have hne : index ≠ i_index := by omega
      have hmod : (i_index + 1) % 65536 ≤ i_index + 1 := Nat.mod_le _ _
      rw [itemLoop_cons, if_pos rfl, if_neg hne]
      exact ih _ _ _ (by omega)
    · have hcount : (a :: cs).count DATA_DELIM = cs.count DATA_DELIM := by
        simp [List.count_cons, ha]
      rw [hcount] at h
      rw [itemLoop_cons, if_neg ha]
      exact ih _ _ _ h

/-- The loop walks over bytes that are not delimiters without changing its counters. -/
theorem itemLoop_skip_item (obs : List Nat) (index : Nat) :
    ∀ (f cs : List Nat) (i i_index i_delim_prev : Nat), DATA_DELIM ∉ f →
      i + f.length < 65536 →
      itemLoop obs index (f ++ cs) i i_index i_delim_prev
        = itemLoop obs index cs (i + f.length) i_index i_delim_prev := by
  intro f
  induction f with
  | nil => intro cs i i_index i_delim_prev _ _; rfl
  | cons a f ih =>
    intro cs i i_index i_delim_prev hf hlen
    have ha : a ≠ DATA_DELIM := fun e => hf (by simp [e])
    have hf1 : DATA_DELIM ∉ f := fun e => hf (by simp [e])
    simp only [List.length_cons] at hlen
    have hmod : (i + 1) % 65536 = i + 1 := Nat.mod_eq_of_lt (by omega)
    rw [List.cons_append, itemLoop_cons, if_neg ha, hmod,
      ih cs (i + 1) i_index i_delim_prev hf1 (by omega)]
    simp only [List.length_cons]
    congr 1
    omega

/-- The loop walks over the items before the requested one: afterwards `i` and
`i_delim_prev` are at the first byte behind them and `i_index` has counted them. -/
theorem itemLoop_skip_items (obs : List Nat) (index : Nat) :
    ∀ (earlier : List (List Nat)) (cs : List Nat) (i i_index i_delim_prev : Nat),
      (∀ f ∈ earlier, DATA_DELIM ∉ f) → i_index + earlier.length ≤ index → i_index ≤ i →
      i + (delimited earlier).length < 65536 →
      itemLoop obs index (delimited earlier ++ cs) i i_index i_delim_prev
        = itemLoop obs index cs (i + (delimited earlier).length) (i_index + earlier.length)
            (if earlier = [] then i_delim_prev else i + (delimited earlier).length) := by
  intro earlier
  induction earlier with
  | nil => intro cs i i_index i_delim_prev _ _ _ _; simp [delimited]
  | cons f fs ih =>
    intro cs i i_index i_delim_prev hfs hidx hle hlen
    have hf : DATA_DELIM ∉ f := hfs f (by simp)
    have hfs1 : ∀ g ∈ fs, DATA_DELIM ∉ g := fun g hg => hfs g (by simp [hg])
    rw [delimited_cons] at hlen ⊢
    simp only [List.length_append, List.length_cons] at hlen hidx
    have hne : index ≠ i_index := by omega
    have hmod1 : (i + f.length + 1) % 65536 = i + f.length + 1 := Nat.mod_eq_of_lt (by omega)
    have hmod2 : (i_index + 1) % 65536 = i_index + 1 := Nat.mod_eq_of_lt (by omega)
    rw [List.append_assoc, itemLoop_skip_item obs index f _ i i_index i_delim_prev hf (by omega)]
    rw [List.cons_append, itemLoop_cons, if_pos rfl, if_neg hne, hmod1, hmod2]
    rw [ih cs (i + f.length + 1) (i_index + 1) (i + f.length + 1) hfs1 (by omega) (by omega)
      (by omega)]
    have e1 : i + f.length + 1 + (delimited fs).length
        = i + (f ++ DATA_DELIM :: delimited fs).length := by
      simp only [List.length_append, List.length_cons]; omega
    have e2 : i_index + 1 + fs.length = i_index + (f :: fs).length := by
      simp only [List.length_cons]; omega
    rw [e1, e2]
    congr 1
    by_cases hfs0 : fs = []
    · subst hfs0
      simp [delimited]
      omega
    · simp [hfs0, e1]

/-- The call for the item that stands behind `earlier.length` delimited items and in front of
a delimiter reaches the copy with `i_delim_prev` at the first byte of the item and
`i_delim_curr` at that delimiter. -/
theorem getItemAt_eq_copyItem (c : WiFiClient) (earlier : List (List Nat))
    (f post rest : List Nat)
    (hearlier : ∀ g ∈ earlier, DATA_DELIM ∉ g) (hf : DATA_DELIM ∉ f)
    (h0 : 0 ∉ delimited earlier ++ (f ++ DATA_DELIM :: post))
    (hlen : (delimited earlier ++ (f ++ DATA_DELIM :: post)).length < 65536) :
    getItemAt { client := c,
                observations := some ((delimited earlier ++ (f ++ DATA_DELIM :: post)) ++ 0 :: rest) }
        earlier.length
      = copyItem ((delimited earlier ++ (f ++ DATA_DELIM :: post)) ++ 0 :: rest)
          (delimited earlier).length ((delimited earlier).length + f.length) := by
  rw [getItemAt_eq_itemLoop c _ rest earlier.length h0 hlen]
  simp only [List.length_append, List.length_cons] at hlen
  rw [itemLoop_skip_items _ _ earlier _ 0 0 0 hearlier (by omega) (le_refl 0) (by omega),
    itemLoop_skip_item _ _ f _ _ _ _ hf (by omega)]
  rw [itemLoop_cons, if_pos rfl, if_pos (by omega)]
  simp only [Nat.zero_add]
  congr 1
  by_cases he : earlier = []
  · subst he
    simp [delimited]
  · simp [he]

/-- The copy for an item that does not begin with a quote mark: the first `f.length % 256`
bytes of the item. -/
theorem copyItem_plain (A f tail : List Nat) (hq : f.head? ≠ some DATA_QUOTE) :
    copyItem (A ++ (f ++ DATA_DELIM :: tail)) A.length (A.length + f.length)
      = .ok (some (f.take (f.length % 256))) := by
  have hget : (A ++ (f ++ DATA_DELIM :: tail)).getD A.length 0 ≠ DATA_QUOTE := by
    rw [List.getD_append_right _ _ _ _ (le_refl _), Nat.sub_self]
    cases f with
    | nil => simp [DATA_DELIM, DATA_QUOTE]
    | cons a f => simpa using hq
  have hmod : f.length % 256 ≤ f.length := Nat.mod_le _ _
  have hlen : (A.length + f.length + 65536 - A.length) % 256 = f.length % 256 := by omega
  have hfit : A.length + f.length % 256 ≤ (A ++ (f ++ DATA_DELIM :: tail)).length := by
    simp only [List.length_append, List.length_cons]; omega
  simp only [copyItem, hget, decide_False, Bool.false_eq_true, if_false, hlen, if_pos hfit]
  rw [List.drop_left, List.take_append_of_le_length hmod]

/-- The copy for an item wrapped in quote marks whose content is shorter than 256 bytes: the
content. -/
theorem copyItem_quoted (A content tail : List Nat) (hc : content.length < 256)
    (hA : A.length + (content.length + 2) < 65536) :
    copyItem (A ++ (DATA_QUOTE :: (content ++ DATA_QUOTE :: DATA_DELIM :: tail))) A.length
        (A.length + (content.length + 2))
      = .ok (some content) := by
  have hget : (A ++ (DATA_QUOTE :: (content ++ DATA_QUOTE :: DATA_DELIM :: tail))).getD
      A.length 0 = DATA_QUOTE := by
    rw [List.getD_append_right _ _ _ _ (le_refl _), Nat.sub_self]
    rfl
  have hlen : ((A.length + (content.length + 2) + 65535) % 65536 + 65536
      - (A.length + 1)) % 256 = content.length := by omega
  have hprev : (A.length + 1) % 65536 = A.length + 1 := by omega
  have hfit : A.length + 1 + content.length
      ≤ (A ++ (DATA_QUOTE :: (content ++ DATA_QUOTE :: DATA_DELIM :: tail))).length := by
    simp only [List.length_append, List.length_cons]; omega
  simp only [copyItem, hget, decide_True, if_true, hprev, hlen, if_pos hfit]
  have hsplit : A ++ (DATA_QUOTE :: (content ++ DATA_QUOTE :: DATA_DELIM :: tail))
      = (A ++ [DATA_QUOTE]) ++ (content ++ DATA_QUOTE :: DATA_DELIM :: tail) := by simp
  rw [hsplit, List.drop_left' (by simp), List.take_left]

theorem count_delimited (earlier : List (List Nat)) (h : ∀ g ∈ earlier, DATA_DELIM ∉ g) :
    (delimited earlier).count DATA_DELIM = earlier.length := by
  induction earlier with
  | nil => rfl
  | cons f fs ih =>
    have hf : DATA_DELIM ∉ f := h f (by simp)
    rw [delimited_cons, List.count_append, List.count_cons_self,
      List.count_eq_zero_of_not_mem hf, ih (fun g hg => h g (by simp [hg]))]
    simp only [List.length_cons]
    omega

/-! ## Item extraction: claims C2, C3, C4 and C10 -/

/-- An item that is followed by a delimiter and does not begin with a quote mark is returned
cut to its first `f.length % 256` bytes, the length being kept in the 8-bit `i_length`. -/
theorem getItemAt_plain_mod (c : WiFiClient) (earlier : List (List Nat))
    (f post rest : List Nat)
    (hearlier : ∀ g ∈ earlier, DATA_DELIM ∉ g) (hf : DATA_DELIM ∉ f)
    (hq : f.head? ≠ some DATA_QUOTE)
    (h0 : 0 ∉ delimited earlier ++ (f ++ DATA_DELIM :: post))
    (hlen : (delimited earlier ++ (f ++ DATA_DELIM :: post)).length < 65536) :
    getItemAt { client := c,
                observations := some ((delimited earlier ++ (f ++ DATA_DELIM :: post)) ++ 0 :: rest) }
        earlier.length
      = .ok (some (f.take (f.length % 256))) := by
  rw [getItemAt_eq_copyItem c earlier f post rest hearlier hf h0 hlen]
  have hsplit : (delimited earlier ++ (f ++ DATA_DELIM :: post)) ++ 0 :: rest
      = delimited earlier ++ (f ++ DATA_DELIM :: (post ++ 0 :: rest)) := by simp
  rw [hsplit, copyItem_plain _ f _ hq]

/-- Supporting fact for C2: an item that is followed by a delimiter, does not begin with a
quote mark and is shorter than 256 bytes is returned as it stands. -/
theorem getItemAt_plain (c : WiFiClient) (earlier : List (List Nat)) (f post rest : List Nat)
    (hearlier : ∀ g ∈ earlier, DATA_DELIM ∉ g) (hf : DATA_DELIM ∉ f)
    (hq : f.head? ≠ some DATA_QUOTE) (hshort : f.length < 256)
    (h0 : 0 ∉ delimited earlier ++ (f ++ DATA_DELIM :: post))
    (hlen : (delimited earlier ++ (f ++ DATA_DELIM :: post)).length < 65536) :
    getItemAt { client := c,
                observations := some ((delimited earlier ++ (f ++ DATA_DELIM :: post)) ++ 0 :: rest) }
        earlier.length
      = .ok (some f) := by
  rw [getItemAt_plain_mod c earlier f post rest hearlier hf hq h0 hlen,
    Nat.mod_eq_of_lt hshort, List.take_length]

/-- Supporting fact for C2: the text behind the last delimiter of the line is not returned;
the call for it yields the null pointer. -/
theorem getItemAt_last_item (c : WiFiClient) (earlier : List (List Nat)) (f rest : List Nat)
    (hearlier : ∀ g ∈ earlier, DATA_DELIM ∉ g) (hf : DATA_DELIM ∉ f)
    (h0 : 0 ∉ delimited earlier ++ f) (hlen : (delimited earlier ++ f).length < 65536) :
    getItemAt { client := c, observations := some ((delimited earlier ++ f) ++ 0 :: rest) }
        earlier.length
      = .ok none := by
  rw [getItemAt_eq_itemLoop c _ rest earlier.length h0 hlen]
  apply itemLoop_null
  rw [List.count_append, count_delimited earlier hearlier, List.count_eq_zero_of_not_mem hf]
  omega

/-- C2 (the code at the failing input): after the scan of the sample response with row offset
2 the captured line is `1,2,3`; `getItemAt(0)` and `getItemAt(1)` return `1` and `2`, but
`getItemAt(2)` returns the null pointer and not `3`, because an item is only copied when the
loop meets the delimiter behind it. -/
theorem getItemAt_sample_last_item (fresh path : List Nat) :
    capturedLine (requestObservations (sampleObject true sampleLines) fresh path 2).2
        = some (bytes "1,2,3")
      ∧ getItemAt (requestObservations (sampleObject true sampleLines) fresh path 2).2 0
        = .ok (some (bytes "1"))
      ∧ getItemAt (requestObservations (sampleObject true sampleLines) fresh path 2).2 1
        = .ok (some (bytes "2"))
      ∧ getItemAt (requestObservations (sampleObject true sampleLines) fresh path 2).2 2
        = .ok none := by
  have hrun : (scanLines 2 sampleLines 0 0xFFFF).last = some (bytes "1,2,3") := by decide
  have hobs := requestObservations_wire_block (sampleObject true sampleLines) fresh path 2
    sampleLines (by decide) rfl rfl (bytes "1,2,3") hrun
  have hcap := (requestObservations_wire (sampleObject true sampleLines) fresh path 2
    sampleLines (by decide) rfl rfl).2.2
  rw [hrun] at hcap
  refine ⟨hcap, ?_, ?_, ?_⟩
  · rw [getItemAt_congr _ _ 0 hobs]
    exact getItemAt_plain _ [] (bytes "1") (bytes "2,3") _
      (by decide) (by decide) (by decide) (by decide) (by decide) (by decide)
  · rw [getItemAt_congr _ _ 1 hobs]
    exact getItemAt_plain _ [bytes "1"] (bytes "2") (bytes "3") _
      (by decide) (by decide) (by decide) (by decide) (by decide) (by decide)
  · rw [getItemAt_congr _ _ 2 hobs]
    exact getItemAt_last_item _ [bytes "1", bytes "2"] (bytes "3") _
      (by decide) (by decide) (by decide) (by decide)

/-- C3: when the item number `i = earlier.length` of the captured line is a quote mark, a
content without delimiter, a quote mark, and is followed by a delimiter, `getItemAt(i)`
returns the content, the two quote marks removed.  The content may have up to 255 bytes (the
claim asks for fewer than 254) and need not be free of quote marks. -/
theorem getItemAt_quoted (c : WiFiClient) (earlier : List (List Nat))
    (content post rest : List Nat)
    (hearlier : ∀ g ∈ earlier, DATA_DELIM ∉ g) (hcontent : DATA_DELIM ∉ content)
    (hshort : content.length < 256)
    (h0 : 0 ∉ delimited earlier ++ ((DATA_QUOTE :: (content ++ [DATA_QUOTE])) ++ DATA_DELIM :: post))
    (hlen : (delimited earlier
        ++ ((DATA_QUOTE :: (content ++ [DATA_QUOTE])) ++ DATA_DELIM :: post)).length < 65536) :
    getItemAt
        { client := c,
          observations := some ((delimited earlier
            ++ ((DATA_QUOTE :: (content ++ [DATA_QUOTE])) ++ DATA_DELIM :: post)) ++ 0 :: rest) }
        earlier.length
      = .ok (some content) := by
  have hf : DATA_DELIM ∉ DATA_QUOTE :: (content ++ [DATA_QUOTE]) := by
    intro h
    simp only [List.mem_cons, List.mem_append, List.mem_singleton, List.not_mem_nil,
      or_false] at h
    rcases h with h | h | h
    · exact absurd h (by decide)
    · exact hcontent h
    · exact absurd h (by decide)
  rw [getItemAt_eq_copyItem c earlier _ post rest hearlier hf h0 hlen]
  simp only [List.length_append, List.length_cons, List.length_nil] at hlen
  have hsplit : (delimited earlier
        ++ ((DATA_QUOTE :: (content ++ [DATA_QUOTE])) ++ DATA_DELIM :: post)) ++ 0 :: rest
      = delimited earlier
        ++ (DATA_QUOTE :: (content ++ DATA_QUOTE :: DATA_DELIM :: (post ++ 0 :: rest))) := by
    simp
  have hl : (DATA_QUOTE :: (content ++ [DATA_QUOTE])).length = content.length + 2 := by simp
  rw [hsplit, hl, copyItem_quoted _ content _ hshort (by omega)]

/-- C3, at the line `a,"b",c` and index 1: the result is `b`. -/
theorem getItemAt_quoted_witness :
    getItemAt { client := WiFiClient.fresh true [], observations := some (quotedLine ++ [0]) } 1
      = .ok (some (bytes "b")) :=
  getItemAt_quoted (WiFiClient.fresh true []) [bytes "a"] (bytes "b") (bytes "c") []
    (by decide) (by decide) (by decide) (by decide) (by decide)

/-- Supporting fact for C4: for every line that is terminated inside the block (the empty
line too) and every index that is at least the number of delimiters of the line, `getItemAt`
returns the null pointer: the call runs through without a fault and its result differs from
every string result.  A line has more items than delimiters, so this covers every index from
the number of items on. -/
theorem getItemAt_out_of_range (c : WiFiClient) (line rest : List Nat) (index : Nat)
    (h0 : 0 ∉ line) (hlen : line.length < 65536) (hidx : line.count DATA_DELIM ≤ index) :
    getItemAt { client := c, observations := some (line ++ 0 :: rest) } index = .ok none
      ∧ ∀ s, getItemAt { client := c, observations := some (line ++ 0 :: rest) } index
          ≠ .ok (some s) := by
  have h : getItemAt { client := c, observations := some (line ++ 0 :: rest) } index
      = .ok none := by
    rw [getItemAt_eq_itemLoop c line rest index h0 hlen]
    exact itemLoop_null _ index line 0 0 0 (by omega)
  refine ⟨h, fun s hs => ?_⟩
  rw [h] at hs
  exact absurd hs (by simp)

/-- The fact above at the line `a,b,c` (three items, two delimiters) and index 3. -/
theorem getItemAt_out_of_range_witness :
    getItemAt { client := WiFiClient.fresh true [], observations := some (bytes "a,b,c" ++ [0]) } 3
        = .ok none
      ∧ ∀ s, getItemAt { client := WiFiClient.fresh true [],
                         observations := some (bytes "a,b,c" ++ [0]) } 3 ≠ .ok (some s) :=
  getItemAt_out_of_range (WiFiClient.fresh true []) (bytes "a,b,c") [] 3
    (by decide) (by decide) (by decide)

/-- C10 (the code at the failing input): the captured line is 256 bytes `a` and a delimiter,
257 bytes in all.  The span of item 0 is `[0, 256)`, but `getItemAt(0)` returns the empty
string: the length 256 is stored into the 8-bit `i_length` and becomes 0. -/
theorem getItemAt_long_item (c : WiFiClient) (rest : List Nat) :
    getItemAt { client := c, observations := some (longItemLine ++ 0 :: rest) } 0
        = .ok (some [])
      ∧ longItemLine.length = 257 := by
  have hmem : ∀ x ∈ longItemLine, x = 97 ∨ x = DATA_DELIM := by
    intro x hx
    unfold longItemLine at hx
    rcases List.mem_append.mp hx with h | h
    · exact Or.inl (List.eq_of_mem_replicate h)
    · exact Or.inr (List.mem_singleton.mp h)
  have hlen : longItemLine.length = 257 := by
    simp only [longItemLine, List.length_append, List.length_replicate, List.length_singleton]
  have hf : DATA_DELIM ∉ List.replicate 256 97 := fun h =>
    absurd (List.eq_of_mem_replicate h) (by decide)
  have hq : (List.replicate 256 97).head? ≠ some DATA_QUOTE := by
    rw [show (256 : Nat) = 255 + 1 from rfl, List.replicate_succ, List.head?_cons]
    decide
  have e : delimited [] ++ (List.replicate 256 97 ++ DATA_DELIM :: []) = longItemLine := rfl
  have h0 : 0 ∉ delimited [] ++ (List.replicate 256 97 ++ DATA_DELIM :: []) := by
    rw [e]
    intro h
    rcases hmem 0 h with e0 | e0
    · exact absurd e0 (by decide)
    · exact absurd e0 (by decide)
  have key := getItemAt_plain_mod c [] (List.replicate 256 97) [] rest
    (fun g hg => absurd hg (List.not_mem_nil g)) hf hq h0 (by rw [e, hlen]; decide)
  rw [e, List.length_nil, List.length_replicate] at key
  exact ⟨key, hlen⟩

/-! ## The object before a fetch: claim C12 -/

/-- When `connect` fails, `requestObservations` returns false, the loop does not run, and
`_observations` points to the block as `malloc` handed it out. -/
theorem requestObservations_unreachable (self : BOMObservations) (fresh path : List Nat)
    (index : Nat) (h : self.client.reachable = false) :
    (requestObservations self fresh path index).1 = false
      ∧ (requestObservations self fresh path index).2.observations = some fresh := by
  obtain ⟨h1, hest, _, _, _⟩ := sendHttpRequest_fields self.client
    { method := HTTP_METHOD_GET, host := HTTP_HOSTNAME, path := path }
  unfold requestObservations
  refine ⟨by rw [h1, h], ?_⟩
  simp only
  rw [scanLoop_of_not_connected _ _ _ (by simp [WiFiClient.connected, hest, h])]

/-- C12 (as stated, refuted): after a fetch whose connection failed, on a block that still
holds the text `x,y`, `getItemAt(0)` returns the string `x`: the call reads the block and
does not fail with an unset-state result. -/
theorem getItemAt_after_failed_fetch_reads_block :
    (requestObservations (sampleObject false []) staleBlock (bytes "/") 0).1 = false
      ∧ getItemAt (requestObservations (sampleObject false []) staleBlock (bytes "/") 0).2 0
          = .ok (some (bytes "x")) := by
  obtain ⟨h1, h2⟩ := requestObservations_unreachable (sampleObject false []) staleBlock
    (bytes "/") 0 rfl
  refine ⟨h1, ?_⟩
  rw [getItemAt_congr _ _ 0 h2]
  exact getItemAt_plain _ [] (bytes "x") (bytes "y") (List.replicate 2044 0)
    (by decide) (by decide) (by decide) (by decide) (by decide) (by decide)

/-- C12 (amended): `getItemAt` has no unset-state check.  After a fetch whose connection
failed, `requestObservations` has returned false and `_observations` points to the block as
`malloc` handed it out, so `getItemAt` yields whatever the indeterminate bytes of that block
yield; on a freshly constructed object the call reads through the pointer that was never
assigned, which is outside defined behaviour. -/
theorem getItemAt_without_fetch (self : BOMObservations) (fresh path : List Nat)
    (index : Nat) (h : self.client.reachable = false) :
    (requestObservations self fresh path index).1 = false
      ∧ (∀ i, getItemAt (requestObservations self fresh path index).2 i
          = getItemAt { client := (requestObservations self fresh path index).2.client,
                        observations := some fresh } i)
      ∧ ∀ (c : WiFiClient) (i : Nat), getItemAt (BOMObservations.new c) i
          = .error .unsetPointer := by
  obtain ⟨h1, h2⟩ := requestObservations_unreachable self fresh path index h
  exact ⟨h1, fun i => getItemAt_congr _ _ i h2, fun _ _ => rfl⟩

/-- C12 (amended), at an object whose peer cannot be reached and the block `staleBlock`. -/
theorem getItemAt_without_fetch_witness :
    (requestObservations (sampleObject false sampleLines) staleBlock (bytes "/") 0).1 = false
      ∧ (∀ i, getItemAt (requestObservations (sampleObject false sampleLines) staleBlock
            (bytes "/") 0).2 i
          = getItemAt { client := (requestObservations (sampleObject false sampleLines)
                          staleBlock (bytes "/") 0).2.client,
                        observations := some staleBlock } i)
      ∧ ∀ (c : WiFiClient) (i : Nat), getItemAt (BOMObservations.new c) i
          = .error .unsetPointer :=
  getItemAt_without_fetch (sampleObject false sampleLines) staleBlock (bytes "/") 0 rfl

/-! ## Which calls return a string: claims C15 and C16 -/

theorem exists_first_delim :
    ∀ line : List Nat, DATA_DELIM ∈ line →
      ∃ f post, line = f ++ DATA_DELIM :: post ∧ DATA_DELIM ∉ f := by
  intro line
  induction line with
  | nil => intro h; simp at h
  | cons a l ih =>
    intro h
    by_cases ha : a = DATA_DELIM
    · exact ⟨[], l, by simp [ha], by simp⟩
    · have hl : DATA_DELIM ∈ l := by
        rcases List.mem_cons.mp h with e | e
        · exact absurd e.symm ha
        · exact e
      obtain ⟨f, post, hsplit, hf⟩ := ih hl
      refine ⟨a :: f, post, by simp [hsplit], ?_⟩
      intro hmem
      rcases List.mem_cons.mp hmem with e | e
      · exact ha e.symm
      · exact hf e

/-- A line with more than `index` delimiters is `index` delimited items, the item number
`index`, its delimiter, and a rest. -/
theorem exists_item_split :
    ∀ (index : Nat) (line : List Nat), index < line.count DATA_DELIM →
      ∃ earlier f post, line = delimited earlier ++ (f ++ DATA_DELIM :: post)
        ∧ earlier.length = index ∧ (∀ g ∈ earlier, DATA_DELIM ∉ g) ∧ DATA_DELIM ∉ f := by
  intro index
  induction index with
  | zero =>
    intro line h
    obtain ⟨f, post, hsplit, hf⟩ := exists_first_delim line (List.count_pos_iff.mp h)
    exact ⟨[], f, post, by simpa [delimited] using hsplit, rfl, by simp, hf⟩
  | succ n ih =>
    intro line h
    obtain ⟨f0, post0, hsplit, hf0⟩ :=
      exists_first_delim line (List.count_pos_iff.mp (by omega))
    have hcount : n < post0.count DATA_DELIM := by
      rw [hsplit, List.count_append, List.count_cons_self,
        List.count_eq_zero_of_not_mem hf0] at h
      omega
    obtain ⟨earlier, f, post, hsplit1, hlen, hearlier, hf⟩ := ih post0 hcount
    refine ⟨f0 :: earlier, f, post, ?_, by simp [hlen], ?_, hf⟩
    · rw [delimited_cons, hsplit, hsplit1]
      simp
    · intro g hg
      rcases List.mem_cons.mp hg with e | e
      · exact e ▸ hf0
      · exact hearlier g e

/-- The copy succeeds whenever 255 bytes of the block lie behind the delimiter: the 8-bit
length is at most 255 and the adjusted start is at most one byte behind the delimiter. -/
theorem copyItem_ok (obs : List Nat) (p q : Nat) (hpq : p ≤ q)
    (hroom : q + 255 ≤ obs.length) :
    ∃ s, copyItem obs p q = .ok (some s) := by
  unfold copyItem
  by_cases hquote : obs.getD p 0 = DATA_QUOTE
  · simp only [hquote, decide_True, if_true]
    rw [if_pos (by omega)]
    exact ⟨_, rfl⟩
  · simp only [hquote, decide_False, Bool.false_eq_true, if_false]
    rw [if_pos (by omega)]
    exact ⟨_, rfl⟩

/-- C15: for every captured line in its block and every index `i`, `getItemAt(i)` returns a
string exactly when the line has at least `i + 1` delimiters, and the null pointer
otherwise; so the text behind the last delimiter is returned for no index, and the empty
line yields the null pointer for every index. -/
theorem getItemAt_string_iff (c : WiFiClient) (line rest : List Nat) (index : Nat)
    (h0 : 0 ∉ line) (hlen : line.length ≤ DATA_BUFSIZE)
    (hblock : (line ++ 0 :: rest).length = DATA_BUFSIZE * 4) :
    ((∃ s, getItemAt { client := c, observations := some (line ++ 0 :: rest) } index
          = .ok (some s)) ↔ index + 1 ≤ line.count DATA_DELIM)
      ∧ (line.count DATA_DELIM ≤ index →
          getItemAt { client := c, observations := some (line ++ 0 :: rest) } index
            = .ok none) := by
  simp only [DATA_BUFSIZE] at hlen hblock
  have hnull : line.count DATA_DELIM ≤ index →
      getItemAt { client := c, observations := some (line ++ 0 :: rest) } index
        = .ok none := by
    intro h
    rw [getItemAt_eq_itemLoop c line rest index h0 (by omega)]
    exact itemLoop_null _ index line 0 0 0 (by omega)
  refine ⟨⟨?_, ?_⟩, hnull⟩
  · rintro ⟨s, hs⟩
    by_contra hcon
    rw [hnull (by omega)] at hs
    exact absurd hs (by simp)
  · intro h
    obtain ⟨earlier, f, post, hsplit, hidx, hearlier, hf⟩ :=
      exists_item_split index line (by omega)
    subst hsplit
    subst hidx
    rw [getItemAt_eq_copyItem c earlier f post rest hearlier hf h0 (by omega)]
    apply copyItem_ok
    · omega
    · simp only [List.length_append, List.length_cons] at hlen hblock ⊢
      omega

/-- C15, at the line `a,b,c` and index 1: a string is returned, and the line has two
delimiters. -/
theorem getItemAt_string_iff_witness :
    ((∃ s, getItemAt { client := WiFiClient.fresh true [],
                       observations := some (bytes "a,b,c" ++ 0 :: List.replicate 2042 0) } 1
          = .ok (some s)) ↔ 1 + 1 ≤ (bytes "a,b,c").count DATA_DELIM)
      ∧ ((bytes "a,b,c").count DATA_DELIM ≤ 1 →
          getItemAt { client := WiFiClient.fresh true [],
                      observations := some (bytes "a,b,c" ++ 0 :: List.replicate 2042 0) } 1
            = .ok none) :=
  getItemAt_string_iff (WiFiClient.fresh true []) (bytes "a,b,c") (List.replicate 2042 0) 1
    (by decide) (by decide)
    (by rw [List.length_append, List.length_cons, List.length_replicate]; rfl)

/-- The copy for an item that begins with a quote mark and has more bytes: the bytes between
the quote mark and the last byte of the item, cut to the 8-bit length.  The last byte is
dropped whether or not it is a quote mark. -/
theorem copyItem_quoted_any (A body tail : List Nat) (hb : body ≠ [])
    (hA : A.length + (body.length + 1) < 65536) :
    copyItem (A ++ (DATA_QUOTE :: (body ++ DATA_DELIM :: tail))) A.length
        (A.length + (body.length + 1))
      = .ok (some (body.take ((body.length - 1) % 256))) := by
  have hpos : 0 < body.length := List.length_pos.mpr hb
  have hget : (A ++ (DATA_QUOTE :: (body ++ DATA_DELIM :: tail))).getD A.length 0
      = DATA_QUOTE := by
    rw [List.getD_append_right _ _ _ _ (le_refl _), Nat.sub_self]
    rfl
  have hprev : (A.length + 1) % 65536 = A.length + 1 := by omega
  have hlen : ((A.length + (body.length + 1) + 65535) % 65536 + 65536
      - (A.length + 1)) % 256 = (body.length - 1) % 256 := by omega
  have hmod : (body.length - 1) % 256 ≤ body.length := by omega
  have hfit : A.length + 1 + (body.length - 1) % 256
      ≤ (A ++ (DATA_QUOTE :: (body ++ DATA_DELIM :: tail))).length := by
    simp only [List.length_append, List.length_cons]; omega
  simp only [copyItem, hget, decide_True, if_true, hprev, hlen, if_pos hfit]
  have hsplit : A ++ (DATA_QUOTE :: (body ++ DATA_DELIM :: tail))
      = (A ++ [DATA_QUOTE]) ++ (body ++ DATA_DELIM :: tail) := by simp
  rw [hsplit, List.drop_left' (by simp), List.take_append_of_le_length hmod]

/-- The copy for an item that is a quote mark and nothing else: the adjusted start lies one
byte behind the adjusted end, the 8-bit length is 255, and 255 bytes are copied from the
delimiter on. -/
theorem copyItem_lone_quote (x n : Nat) (tail : List Nat) (hn : 252 ≤ n) :
    copyItem ([DATA_QUOTE, DATA_DELIM, x] ++ 0 :: (List.replicate n 0 ++ tail)) 0 1
      = .ok (some (DATA_DELIM :: x :: List.replicate 253 0)) := by
  have hfit : 1 + 255
      ≤ ([DATA_QUOTE, DATA_DELIM, x] ++ 0 :: (List.replicate n 0 ++ tail)).length := by
    simp only [List.length_append, List.length_cons, List.length_nil, List.length_replicate]
    omega
  have hget : ([DATA_QUOTE, DATA_DELIM, x] ++ 0 :: (List.replicate n 0 ++ tail)).getD 0 0
      = DATA_QUOTE := rfl
  have h1 : (0 + 1) % 65536 = 1 := rfl
  have h2 : (1 + 65535) % 65536 = 0 := rfl
  have h3 : (0 + 65536 - 1) % 256 = 255 := rfl
  simp only [copyItem, hget, decide_True, if_true, h1, h2, h3, if_pos hfit]
  have hobs : [DATA_QUOTE, DATA_DELIM, x] ++ 0 :: (List.replicate n 0 ++ tail)
      = DATA_QUOTE :: DATA_DELIM :: x :: 0 :: (List.replicate n 0 ++ tail) := rfl
  rw [hobs, List.drop_succ_cons, List.drop_zero,
    show (255 : Nat) = 252 + 1 + 1 + 1 from rfl, List.take_succ_cons, List.take_succ_cons,
    List.take_succ_cons,
    List.take_append_of_le_length (by rw [List.length_replicate]; exact hn),
    List.take_replicate, Nat.min_eq_left hn, ← List.replicate_succ]

/-- Supporting fact for C16: when the item is not a quote mark alone, the string returned is
a contiguous part of the item, and so of the captured line. -/
theorem getItemAt_infix (c : WiFiClient) (earlier : List (List Nat))
    (f post rest s : List Nat)
    (hearlier : ∀ g ∈ earlier, DATA_DELIM ∉ g) (hf : DATA_DELIM ∉ f)
    (h0 : 0 ∉ delimited earlier ++ (f ++ DATA_DELIM :: post))
    (hlen : (delimited earlier ++ (f ++ DATA_DELIM :: post)).length < 65536)
    (hne : f ≠ [DATA_QUOTE])
    (hres : getItemAt
        { client := c,
          observations := some ((delimited earlier ++ (f ++ DATA_DELIM :: post)) ++ 0 :: rest) }
        earlier.length = .ok (some s)) :
    s <:+: f := by
  rw [getItemAt_eq_copyItem c earlier f post rest hearlier hf h0 hlen] at hres
  have hsplit : (delimited earlier ++ (f ++ DATA_DELIM :: post)) ++ 0 :: rest
      = delimited earlier ++ (f ++ DATA_DELIM :: (post ++ 0 :: rest)) := by simp
  rw [hsplit] at hres
  by_cases hq : f.head? = some DATA_QUOTE
  · obtain ⟨body, hbody⟩ : ∃ body, f = DATA_QUOTE :: body := by
      cases f with
      | nil => simp at hq
      | cons a body => exact ⟨body, by simp at hq; rw [hq]⟩
    subst hbody
    have hb : body ≠ [] := fun e => hne (by rw [e])
    simp only [List.length_append, List.length_cons] at hlen
    have hcopy := copyItem_quoted_any (delimited earlier) body (post ++ 0 :: rest) hb
      (by omega)
    simp only [List.cons_append, List.length_cons] at hres
    rw [hcopy] at hres
    simp only [Except.ok.injEq, Option.some.injEq] at hres
    rw [← hres]
    exact List.infix_cons (List.take_prefix _ _).isInfix
  · rw [copyItem_plain _ f _ hq] at hres
    simp only [Except.ok.injEq, Option.some.injEq] at hres
    rw [← hres]
    exact (List.take_prefix _ _).isInfix

/-- C16 (the code at the failing input): the response is the one line made of a quote mark,
a delimiter and `x`, so the captured line has 3 bytes and its item 0 is the quote mark
alone.  `getItemAt(0)` moves the start to offset 1 and the end to offset 0, stores the
length -1 into the 8-bit `i_length` as 255, and copies 255 bytes from offset 1 on: the
delimiter, `x`, the terminator of the line and 252 bytes behind it. -/
theorem getItemAt_lone_quote (fresh path : List Nat) :
    capturedLine (requestObservations (sampleObject true [loneQuoteLine]) fresh path 0).2
        = some loneQuoteLine
      ∧ loneQuoteLine.length = 3
      ∧ getItemAt (requestObservations (sampleObject true [loneQuoteLine]) fresh path 0).2 0
        = .ok (some (DATA_DELIM :: 120 :: List.replicate 253 0))
      ∧ (DATA_DELIM :: 120 :: List.replicate 253 0).length = 255 := by
  have hrun : (scanLines 0 [loneQuoteLine] 0 0xFFFF).last = some loneQuoteLine := by decide
  have hobs := requestObservations_wire_block (sampleObject true [loneQuoteLine]) fresh path 0
    [loneQuoteLine] (by decide) rfl rfl loneQuoteLine hrun
  have hcap := (requestObservations_wire (sampleObject true [loneQuoteLine]) fresh path 0
    [loneQuoteLine] (by decide) rfl rfl).2.2
  rw [hrun] at hcap
  refine ⟨hcap, rfl, ?_, by rw [List.length_cons, List.length_cons, List.length_replicate]⟩
  rw [getItemAt_congr _ _ 0 hobs]
  have hitem := getItemAt_eq_copyItem
    (requestObservations (sampleObject true [loneQuoteLine]) fresh path 0).2.client
    [] [DATA_QUOTE] [120]
    (List.replicate (DATA_BUFSIZE - 1 - loneQuoteLine.length) 0 ++ fresh.drop DATA_BUFSIZE)
    (by decide) (by decide) (by decide) (by decide)
  exact hitem.trans (copyItem_lone_quote 120 _ _ (by decide))

/-! ## The read loop on arbitrary responses -/

theorem cstr_eq_self (d : List Nat) (h : 0 ∉ d) : cstr d = d := by
  induction d with
  | nil => rfl
  | cons a l ih =>
    have ha : a ≠ 0 := fun e => h (by simp [e])
    have hl : 0 ∉ l := fun e => h (by simp [e])
    have hl' := ih hl
    simp only [cstr] at hl' ⊢
    simp [List.takeWhile_cons, ha, hl']

theorem cstr_append (d t : List Nat) :
    cstr (d ++ t) = if 0 ∈ d then cstr d else d ++ cstr t := by
  induction d with
  | nil => simp
  | cons a l ih =>
    by_cases ha : a = 0
    · subst ha
      simp [cstr]
    · have hmem : (0 ∈ a :: l) ↔ 0 ∈ l := by
        simp [List.mem_cons, Ne.symm ha]
      have h1 : cstr (a :: l ++ t) = a :: cstr (l ++ t) := by
        simp [cstr, List.takeWhile_cons, ha]
      have h2 : cstr (a :: l) = a :: cstr l := by
        simp [cstr, List.takeWhile_cons, ha]
      rw [h1, ih, h2]
      by_cases hl : 0 ∈ l
      · simp [hl]
      · simp [hl, Ne.symm ha]

theorem length_cstr_le (d : List Nat) : (cstr d).length ≤ d.length := by
  unfold cstr
  exact (List.takeWhile_sublist _).length_le

/-- The marker test of the loop on the block after a read that stored `d`. -/
theorem strcmp_store_memset (buf d : List Nat) (h : d.length ≤ DATA_BUFSIZE) :
    (strcmp (store (memset buf 0 DATA_BUFSIZE) d) DATA_HEADER = 0) ↔ cstr d = DATA_HEADER := by
  have hcmp : ∀ x : List Nat, (strcmp x DATA_HEADER = 0) ↔ cstr x = DATA_HEADER := by
    intro x
    unfold strcmp
    split_ifs with hx <;> simp [hx]
  rw [hcmp, store_memset buf d h, cstr_append]
  by_cases h0 : 0 ∈ d
  · rw [if_pos h0]
  · rw [if_neg h0, cstr_eq_self d h0]
    by_cases hfull : d.length = DATA_BUFSIZE
    · have hne : d ≠ DATA_HEADER := by
        intro e
        rw [e] at hfull
        exact absurd hfull (by decide)
      constructor
      · intro e
        have := congrArg List.length e
        rw [List.length_append, hfull] at this
        have h6 : DATA_HEADER.length = 6 := by decide
        simp only [DATA_BUFSIZE] at this
        omega
      · intro e
        exact absurd e hne
    · obtain ⟨m, hm⟩ : ∃ m, DATA_BUFSIZE - d.length = m + 1 :=
        ⟨DATA_BUFSIZE - d.length - 1, by omega⟩
      have hz : cstr (List.replicate (DATA_BUFSIZE - d.length) 0 ++ List.drop DATA_BUFSIZE buf)
          = [] := by
        rw [hm, List.replicate_succ, List.cons_append]
        simp [cstr]
      rw [hz, List.append_nil]

theorem markerTag_eq_header (d : List Nat) :
    markerTag d = DATA_HEADER ↔ cstr d = DATA_HEADER := by
  unfold markerTag
  split_ifs with h
  · simp [h]
  · constructor
    · intro e
      exact absurd e (by decide)
    · intro e
      exact absurd e h

/-- One pass through the loop body, in terms of the bytes the read stores. -/
theorem scanBody_read (index : Nat) (s : ScanState) :
    scanBody index s =
      { client :=
          if s.i_line
              = (if markerTag (readBytesUntil 10 DATA_BUFSIZE s.client.rx).1 = DATA_HEADER
                  then (s.i_line + DATA_OFFSET) % 65536 else s.i_field) + index
          then ({ s.client with rx := (readBytesUntil 10 DATA_BUFSIZE s.client.rx).2,
                                nreads := s.client.nreads + 1 } : WiFiClient).stop
          else { s.client with rx := (readBytesUntil 10 DATA_BUFSIZE s.client.rx).2,
                               nreads := s.client.nreads + 1 },
        observations := store (memset s.observations 0 DATA_BUFSIZE)
          (readBytesUntil 10 DATA_BUFSIZE s.client.rx).1,
        i_line := (s.i_line + 1) % 65536,
        i_field := if markerTag (readBytesUntil 10 DATA_BUFSIZE s.client.rx).1 = DATA_HEADER
          then (s.i_line + DATA_OFFSET) % 65536 else s.i_field } := by
  have hcmp := strcmp_store_memset s.observations (readBytesUntil 10 DATA_BUFSIZE s.client.rx).1
    (readBytesUntil_length_le 10 DATA_BUFSIZE s.client.rx)
  unfold scanBody
  simp only [WiFiClient.readBytesUntil, hcmp, markerTag_eq_header]

theorem readsAux_nil (fuel : Nat) : readsAux fuel [] = [] := by
  cases fuel <;> simp [readsAux]

theorem readsAux_succ (fuel : Nat) (rx : List Nat) (h : rx ≠ []) :
    readsAux (fuel + 1) rx
      = (readBytesUntil 10 DATA_BUFSIZE rx).1
        :: readsAux fuel (readBytesUntil 10 DATA_BUFSIZE rx).2 := by
  simp [readsAux, h]

theorem readBytesUntil_rest_lt_of_ne_nil (rx : List Nat) (h : rx ≠ []) :
    (readBytesUntil 10 DATA_BUFSIZE rx).2.length < rx.length := by
  obtain ⟨c, t, rfl⟩ := List.exists_cons_of_ne_nil h
  exact readBytesUntil_rest_lt 10 (DATA_BUFSIZE - 1) c t

/-- More fuel than the response has bytes does not change the reads. -/
theorem readsAux_fuel :
    ∀ (n m : Nat) (rx : List Nat), rx.length ≤ n → rx.length ≤ m →
      readsAux n rx = readsAux m rx := by
  intro n
  induction n with
  | zero =>
    intro m rx hn _
    have : rx = [] := List.length_eq_zero.mp (by omega)
    rw [this, readsAux_nil, readsAux_nil]
  | succ n ih =>
    intro m rx hn hm
    by_cases hrx : rx = []
    · rw [hrx, readsAux_nil, readsAux_nil]
    · have hlt := readBytesUntil_rest_lt_of_ne_nil rx hrx
      obtain ⟨m, rfl⟩ : ∃ k, m = k + 1 := ⟨m - 1, by
        have : 0 < rx.length := List.length_pos.mpr hrx
        omega⟩
      rw [readsAux_succ n rx hrx, readsAux_succ m rx hrx, ih m _ (by omega) (by omega)]

theorem reads_nil : reads [] = [] := rfl

theorem reads_of_ne_nil (rx : List Nat) (h : rx ≠ []) :
    reads rx = (readBytesUntil 10 DATA_BUFSIZE rx).1
      :: reads (readBytesUntil 10 DATA_BUFSIZE rx).2 := by
  have hlt := readBytesUntil_rest_lt_of_ne_nil rx h
  obtain ⟨n, hn⟩ : ∃ n, rx.length = n + 1 := ⟨rx.length - 1, by
    have : 0 < rx.length := List.length_pos.mpr h
    omega⟩
  unfold reads
  rw [hn, readsAux_succ n rx h, readsAux_fuel n _ _ (by omega) (le_refl _)]

/-- The read loop on any response: it makes the reads of `reads` until it stops, the
counters run over them as `scanLines` runs over their tags, and the block holds the bytes of
the last read behind a cleared start. -/
theorem scanLoop_reads (index : Nat) :
    ∀ (fuel : Nat) (s : ScanState), s.client.established = true → s.client.rx.length ≤ fuel →
      (scanLoop index fuel s).client
          = { s.client with
              established :=
                !(scanLines index ((reads s.client.rx).map markerTag) s.i_line s.i_field).stopped,
              rx := [],
              nreads := s.client.nreads
                + (scanLines index ((reads s.client.rx).map markerTag) s.i_line s.i_field).nread,
              stopped := s.client.stopped
                || (scanLines index ((reads s.client.rx).map markerTag)
                      s.i_line s.i_field).stopped }
        ∧ (scanLoop index fuel s).observations
          = (match ((reads s.client.rx).take
                (scanLines index ((reads s.client.rx).map markerTag)
                  s.i_line s.i_field).nread).getLast? with
             | none => s.observations
             | some d => store (memset s.observations 0 DATA_BUFSIZE) d) := by
  intro fuel
  induction fuel with
  | zero =>
    intro s hest hlen
    have hrx0 : s.client.rx = [] := List.length_eq_zero.mp (by omega)
    have hnc : s.client.connected = false := by simp [WiFiClient.connected, hrx0]
    rw [scanLoop_of_not_connected index _ s hnc, hrx0, reads_nil]
    refine ⟨?_, rfl⟩
    cases hs : s.client
    simp [hs] at hest hrx0
    simp [scanLines, hest, hrx0]
  | succ fuel ih =>
    intro s hest hlen
    by_cases hrx : s.client.rx = []
    · have hnc : s.client.connected = false := by simp [WiFiClient.connected, hrx]
      rw [scanLoop_of_not_connected index _ s hnc, hrx, reads_nil]
      refine ⟨?_, rfl⟩
      cases hs : s.client
      simp [hs] at hest hrx
      simp [scanLines, hest, hrx]
    · have hconn : s.client.connected = true := by
        simp [WiFiClient.connected, hest, hrx]
      have hav : s.client.available ≠ 0 := by
        simpa [WiFiClient.available] using hrx
      have hstep : scanLoop index (fuel + 1) s = scanLoop index fuel (scanBody index s) := by
        simp [scanLoop, hconn, hav]
      have hlt := readBytesUntil_rest_lt_of_ne_nil s.client.rx hrx
      have hdlen := readBytesUntil_length_le 10 DATA_BUFSIZE s.client.rx
      rw [hstep, scanBody_read, reads_of_ne_nil s.client.rx hrx, List.map_cons, scanLines_cons]
      generalize hd : (readBytesUntil 10 DATA_BUFSIZE s.client.rx).1 = d at hdlen ⊢
      generalize hr : (readBytesUntil 10 DATA_BUFSIZE s.client.rx).2 = rx1 at hlt ⊢
      generalize hf : (if markerTag d = DATA_HEADER then (s.i_line + DATA_OFFSET) % 65536
        else s.i_field) = f1
      by_cases hstop : s.i_line = f1 + index
      · rw [if_pos hstop, if_pos hstop,
          scanLoop_of_not_connected _ _ _ (by simp [WiFiClient.connected, WiFiClient.stop])]
        simp [WiFiClient.stop]
      · rw [if_neg hstop, if_neg hstop]
        obtain ⟨h1, h2⟩ := ih
          { client := { s.client with rx := rx1, nreads := s.client.nreads + 1 },
            observations := store (memset s.observations 0 DATA_BUFSIZE) d,
            i_line := (s.i_line + 1) % 65536,
            i_field := f1 }
          hest (by simp only; omega)
        simp only at h1 h2
        rw [h1, h2]
        refine ⟨?_, ?_⟩
        · simp [Nat.add_assoc, Nat.add_comm]
        · simp only [List.take_succ_cons, List.getLast?_cons]
          cases ((reads rx1).take
              (scanLines index ((reads rx1).map markerTag) ((s.i_line + 1) % 65536) f1).nread).getLast? with
          | none => simp
          | some d1 =>
            simp only [Option.getD_some]
            rw [memset_store_memset _ d hdlen]

theorem scanLines_nread_le (index : Nat) :
    ∀ (lines : List (List Nat)) (i f : Nat), (scanLines index lines i f).nread ≤ lines.length := by
  intro lines
  induction lines with
  | nil => intro i f; simp [scanLines]
  | cons l ls ih =>
    intro i f
    rw [scanLines_cons]
    generalize (if l = DATA_HEADER then (i + DATA_OFFSET) % 65536 else f) = f1
    by_cases hs : i = f1 + index
    · rw [if_pos hs]
      simp
    · rw [if_neg hs]
      have := ih ((i + 1) % 65536) f1
      simp only [List.length_cons]
      omega

theorem scanLines_nread_pos (index : Nat) (lines : List (List Nat)) (i f : Nat)
    (h : lines ≠ []) : 1 ≤ (scanLines index lines i f).nread := by
  obtain ⟨l, ls, rfl⟩ := List.exists_cons_of_ne_nil h
  rw [scanLines_cons]
  generalize (if l = DATA_HEADER then (i + DATA_OFFSET) % 65536 else f) = f1
  by_cases hs : i = f1 + index
  · rw [if_pos hs]
  · rw [if_neg hs]
    simp

/-- The run of `requestObservations` on a reachable peer, for any response: the number of
reads, whether `stop` was called, and the block afterwards, in terms of the reads of the
response. -/
theorem requestObservations_reads (self : BOMObservations) (fresh path : List Nat)
    (index : Nat) (hreach : self.client.reachable = true) :
    (requestObservations self fresh path index).2.client.nreads
        = self.client.nreads
          + (scanLines index ((reads self.client.rx).map markerTag) 0 0xFFFF).nread
      ∧ (requestObservations self fresh path index).2.client.stopped
        = (self.client.stopped
            || (scanLines index ((reads self.client.rx).map markerTag) 0 0xFFFF).stopped)
      ∧ (requestObservations self fresh path index).2.observations
        = some (match ((reads self.client.rx).take
                  (scanLines index ((reads self.client.rx).map markerTag) 0 0xFFFF).nread).getLast? with
                | none => fresh
                | some d => store (memset fresh 0 DATA_BUFSIZE) d) := by
  obtain ⟨_, hest, hrx1, hn, hst⟩ := sendHttpRequest_fields self.client
    { method := HTTP_METHOD_GET, host := HTTP_HOSTNAME, path := path }
  obtain ⟨h1, h2⟩ := scanLoop_reads index
    (sendHttpRequest self.client
      { method := HTTP_METHOD_GET, host := HTTP_HOSTNAME, path := path }).2.rx.length
    { client := (sendHttpRequest self.client
        { method := HTTP_METHOD_GET, host := HTTP_HOSTNAME, path := path }).2,
      observations := fresh, i_line := 0, i_field := 0xFFFF }
    (by rw [hest, hreach]) (le_refl _)
  simp only [hrx1] at h1 h2
  unfold requestObservations
  simp only [hrx1, h1, h2, hn, hst, true_and]

theorem readBytesUntil_full (d rest : List Nat) (h : 10 ∉ d) :
    readBytesUntil 10 d.length (d ++ rest) = (d, rest) := by
  induction d with
  | nil => simp [readBytesUntil]
  | cons a l ih =>
    have ha : a ≠ 10 := fun e => h (by simp [e])
    have hl : 10 ∉ l := fun e => h (by simp [e])
    simp [readBytesUntil, ha, ih hl]

/-- A line shorter than the capacity is one read, which consumes its line feed. -/
theorem reads_line (p rest : List Nat) (h : 10 ∉ p) (hlen : p.length < DATA_BUFSIZE) :
    reads (p ++ 10 :: rest) = p :: reads rest := by
  rw [reads_of_ne_nil _ (by simp), readBytesUntil_line p rest h DATA_BUFSIZE hlen]

/-- A line of the capacity or more: the first read stores the first `DATA_BUFSIZE` bytes and
leaves the rest of the line, line feed included, for the next reads. -/
theorem reads_long_line (p rest : List Nat) (h : 10 ∉ p) (hlen : DATA_BUFSIZE ≤ p.length) :
    reads (p ++ 10 :: rest)
      = p.take DATA_BUFSIZE :: reads (p.drop DATA_BUFSIZE ++ 10 :: rest) := by
  have hsplit : p ++ 10 :: rest
      = p.take DATA_BUFSIZE ++ (p.drop DATA_BUFSIZE ++ 10 :: rest) := by
    rw [← List.append_assoc, List.take_append_drop]
  have htake : (p.take DATA_BUFSIZE).length = DATA_BUFSIZE := by
    rw [List.length_take]; omega
  have hno : 10 ∉ p.take DATA_BUFSIZE := fun e => h (List.mem_of_mem_take e)
  have hread := readBytesUntil_full (p.take DATA_BUFSIZE) (p.drop DATA_BUFSIZE ++ 10 :: rest) hno
  rw [htake, ← hsplit] at hread
  rw [reads_of_ne_nil _ (by simp), hread]

/-- A line of exactly the capacity is two reads, the second one empty. -/
theorem reads_full_line (p rest : List Nat) (h : 10 ∉ p) (hlen : p.length = DATA_BUFSIZE) :
    reads (p ++ 10 :: rest) = p :: [] :: reads rest := by
  rw [reads_long_line p rest h (by omega), List.take_of_length_le (by omega),
    List.drop_of_length_le (by omega), List.nil_append]
  have := reads_line [] rest (by simp) (by decide)
  rw [List.nil_append] at this
  rw [this]

/-- The reads of a response whose lines are all shorter than the capacity are its lines. -/
theorem reads_wire (lines : List (List Nat))
    (h : ∀ l ∈ lines, 10 ∉ l ∧ l.length < DATA_BUFSIZE) : reads (wire lines) = lines := by
  induction lines with
  | nil => rfl
  | cons l ls ih =>
    rw [wire_cons, reads_line l _ (h l (by simp)).1 (h l (by simp)).2,
      ih (fun x hx => h x (by simp [hx]))]

theorem markerTag_of_length_ne (d : List Nat) (h0 : 0 ∉ d) (hlen : d.length ≠ 6) :
    markerTag d = [] := by
  unfold markerTag
  rw [cstr_eq_self d h0, if_neg]
  intro e
  rw [e] at hlen
  exact hlen (by decide)

theorem header_not_mem_map_markerTag (ds : List (List Nat))
    (h : ∀ d ∈ ds, cstr d ≠ DATA_HEADER) : DATA_HEADER ∉ ds.map markerTag := by
  intro hmem
  obtain ⟨d, hd, he⟩ := List.mem_map.mp hmem
  exact h d hd ((markerTag_eq_header d).mp he)

theorem cstr_append_zero_any (l t : List Nat) : cstr (l ++ 0 :: t) = cstr l := by
  rw [cstr_append]
  by_cases h0 : 0 ∈ l
  · rw [if_pos h0]
  · rw [if_neg h0, cstr_eq_self l h0]
    simp [cstr]

theorem store_memset_short (buf l : List Nat) (hlen : l.length < DATA_BUFSIZE) :
    store (memset buf 0 DATA_BUFSIZE) l
      = l ++ 0 :: (List.replicate (DATA_BUFSIZE - 1 - l.length) 0 ++ buf.drop DATA_BUFSIZE) := by
  rw [store_memset buf l (by omega)]
  have hm : DATA_BUFSIZE - l.length = (DATA_BUFSIZE - 1 - l.length) + 1 := by omega
  rw [hm, List.replicate_succ, List.cons_append]

theorem store_memset_full (buf d : List Nat) (hlen : d.length = DATA_BUFSIZE) :
    store (memset buf 0 DATA_BUFSIZE) d = d ++ buf.drop DATA_BUFSIZE := by
  rw [store_memset buf d (by omega), hlen, Nat.sub_self, List.replicate_zero, List.nil_append]

theorem fullLine_length : fullLine.length = DATA_BUFSIZE := by
  unfold fullLine
  rw [List.length_replicate]
  rfl

theorem not_mem_fullLine (b : Nat) (h : b ≠ 97) : b ∉ fullLine := fun hmem =>
  h (List.eq_of_mem_replicate hmem)

theorem reads_fullRowResponse :
    reads fullRowResponse = [DATA_HEADER, bytes "x", fullLine, [], bytes "y"] := by
  have h : fullRowResponse
      = DATA_HEADER ++ 10 :: (bytes "x" ++ 10 :: (fullLine ++ 10 :: wire [bytes "y"])) := by
    unfold fullRowResponse
    rw [wire_cons, wire_cons]
    simp [wire]
  rw [h, reads_line _ _ (by decide) (by decide), reads_line _ _ (by decide) (by decide),
    reads_full_line _ _ (not_mem_fullLine 10 (by decide)) fullLine_length,
    reads_wire _ (by decide)]

theorem reads_fullSecondResponse :
    reads fullSecondResponse = [DATA_HEADER, fullLine, [], bytes "x", bytes "y"] := by
  have h : fullSecondResponse
      = DATA_HEADER ++ 10 :: (fullLine ++ 10 :: wire [bytes "x", bytes "y"]) := by
    unfold fullSecondResponse
    rw [wire_cons]
    simp [wire]
  rw [h, reads_line _ _ (by decide) (by decide),
    reads_full_line _ _ (not_mem_fullLine 10 (by decide)) fullLine_length,
    reads_wire _ (by decide)]

theorem markerTag_fullLine : markerTag fullLine = [] :=
  markerTag_of_length_ne fullLine (not_mem_fullLine 0 (by decide))
    (by rw [fullLine_length]; decide)

theorem cstr_fullLine_ne : cstr fullLine ≠ DATA_HEADER := by
  intro h
  have := (markerTag_eq_header fullLine).mpr h
  rw [markerTag_fullLine] at this
  exact absurd this (by decide)

theorem scanBody_counters (index : Nat) (s : ScanState) :
    (scanBody index s).i_line = (s.i_line + 1) % 65536
      ∧ (scanBody index s).client.nreads = s.client.nreads + 1 := by
  refine ⟨rfl, ?_⟩
  unfold scanBody
  simp only [WiFiClient.readBytesUntil]
  split_ifs <;> rfl

/-- The line index advances by one with every read: after the loop, `i_line` is its value
before the loop plus the number of calls of `readBytesUntil`, reduced to 16 bits. -/
theorem scanLoop_i_line (index : Nat) :
    ∀ (fuel : Nat) (s : ScanState), s.i_line < 65536 →
      s.client.nreads ≤ (scanLoop index fuel s).client.nreads
        ∧ (scanLoop index fuel s).i_line
          = (s.i_line + ((scanLoop index fuel s).client.nreads - s.client.nreads)) % 65536 := by
  intro fuel
  induction fuel with
  | zero =>
    intro s hi
    simp only [scanLoop, Nat.sub_self, Nat.add_zero, le_refl, true_and]
    omega
  | succ fuel ih =>
    intro s hi
    unfold scanLoop
    split_ifs
    · obtain ⟨hl, hn⟩ := scanBody_counters index s
      obtain ⟨h1, h2⟩ := ih (scanBody index s) (by rw [hl]; exact Nat.mod_lt _ (by decide))
      rw [hl, hn] at h2
      rw [hn] at h1
      refine ⟨by omega, ?_⟩
      rw [h2]
      omega
    · exact ih s hi
    · simp only [Nat.sub_self, Nat.add_zero, le_refl, true_and]
      omega

/-! ## Reads and the block: claims C11, C14 and C18 -/

/-- C11 (the code at the failing input): the response has the lines `[data]`, `x`, a line of
512 bytes `a`, and `y`; with row offset 0 the loop stops after the read that stores the 512
bytes.  The read fills all `DATA_BUFSIZE` bytes that `memset` had cleared: 512 bytes are
stored, not 511, no zero byte is among them, and the captured C string runs on into the
bytes of the block that were never written.  On a block without a zero byte behind them,
`getItemAt` reads beyond the end of the block. -/
theorem requestObservations_full_row (fresh path : List Nat) :
    (requestObservations (sampleObjectRaw true fullRowResponse) fresh path 0).2.observations
        = some (fullLine ++ fresh.drop DATA_BUFSIZE)
      ∧ fullLine.length = DATA_BUFSIZE
      ∧ 0 ∉ fullLine
      ∧ capturedLine (requestObservations (sampleObjectRaw true fullRowResponse) fresh path 0).2
        = some (fullLine ++ cstr (fresh.drop DATA_BUFSIZE))
      ∧ ∀ i, getItemAt
          (requestObservations (sampleObjectRaw true fullRowResponse) sampleBlock path 0).2 i
        = .error .outOfBounds := by
  have hrun : scanLines 0 ((reads fullRowResponse).map markerTag) 0 0xFFFF
      = { nread := 3, stopped := true, last := some [] } := by
    rw [reads_fullRowResponse]
    simp only [List.map_cons, List.map_nil, markerTag_fullLine]
    decide
  have hobs : ∀ fr : List Nat,
      (requestObservations (sampleObjectRaw true fullRowResponse) fr path 0).2.observations
        = some (fullLine ++ fr.drop DATA_BUFSIZE) := by
    intro fr
    have h := (requestObservations_reads (sampleObjectRaw true fullRowResponse) fr path 0
      rfl).2.2
    have hrx : (sampleObjectRaw true fullRowResponse).client.rx = fullRowResponse := rfl
    rw [hrx, hrun, reads_fullRowResponse] at h
    rw [h]
    simp only [List.take_succ_cons, List.take_zero, List.getLast?_cons_cons,
      List.getLast?_singleton, store_memset_full fr fullLine fullLine_length]
  have h0 : 0 ∉ fullLine := not_mem_fullLine 0 (by decide)
  refine ⟨hobs fresh, fullLine_length, h0, ?_, ?_⟩
  · unfold capturedLine
    rw [hobs fresh, Option.map_some', cstr_append, if_neg h0]
  · intro i
    have hnz : 0 ∉ fullLine ++ sampleBlock.drop DATA_BUFSIZE := by
      intro hmem
      rcases List.mem_append.mp hmem with e | e
      · exact h0 e
      · exact absurd (List.eq_of_mem_replicate (List.mem_of_mem_drop e)) (by decide)
    simp only [getItemAt, hobs sampleBlock, strlen, if_neg hnz]

theorem readBytesUntil_all (t : List Nat) (h : 10 ∉ t) :
    ∀ n, t.length ≤ n → readBytesUntil 10 n t = (t, []) := by
  induction t with
  | nil =>
    intro n _
    cases n <;> simp [readBytesUntil]
  | cons a l ih =>
    intro n hn
    have ha : a ≠ 10 := fun e => h (by simp [e])
    have hl : 10 ∉ l := fun e => h (by simp [e])
    cases n with
    | zero => simp at hn
    | succ n =>
      have hn1 : l.length ≤ n := by simpa using hn
      simp [readBytesUntil, ha, ih hl n hn1]

/-- The bytes behind the last line feed of a response, when there are any, are one more
read. -/
theorem reads_tail (t : List Nat) (h : 10 ∉ t) (hlen : t.length ≤ DATA_BUFSIZE) :
    reads t = if t = [] then [] else [t] := by
  by_cases ht : t = []
  · rw [if_pos ht, ht, reads_nil]
  · rw [if_neg ht, reads_of_ne_nil t ht, readBytesUntil_all t h DATA_BUFSIZE hlen, reads_nil]

/-- The reads of a response whose lines are all shorter than the capacity, the bytes behind
the last line feed included, are its lines. -/
theorem reads_wire_tail (lines : List (List Nat)) (tail : List Nat)
    (h : ∀ l ∈ lines, 10 ∉ l ∧ l.length < DATA_BUFSIZE)
    (htail : 10 ∉ tail ∧ tail.length < DATA_BUFSIZE) :
    reads (wire lines ++ tail) = lines ++ (if tail = [] then [] else [tail]) := by
  induction lines with
  | nil =>
    simp only [wire, List.map_nil, List.flatten_nil, List.nil_append]
    exact reads_tail tail htail.1 (by omega)
  | cons l ls ih =>
    rw [wire_cons, List.append_assoc, List.cons_append,
      reads_line l _ (h l (by simp)).1 (h l (by simp)).2,
      ih (fun x hx => h x (by simp [hx])), List.cons_append]

/-- The block after `requestObservations` when every read of the response is shorter than
the capacity: the last read, a zero byte, and zero fill. -/
theorem requestObservations_last_read (self : BOMObservations) (fresh path : List Nat)
    (index : Nat) (ds : List (List Nat))
    (hreach : self.client.reachable = true) (hds : reads self.client.rx = ds)
    (hshort : ∀ d ∈ ds, d.length < DATA_BUFSIZE) (hne : ds ≠ []) :
    ∃ l, ds[(requestObservations self fresh path index).2.client.nreads
            - self.client.nreads - 1]? = some l
      ∧ 1 ≤ (requestObservations self fresh path index).2.client.nreads - self.client.nreads
      ∧ (requestObservations self fresh path index).2.observations
          = some (l ++ 0 :: (List.replicate (DATA_BUFSIZE - 1 - l.length) 0
              ++ fresh.drop DATA_BUFSIZE))
      ∧ capturedLine (requestObservations self fresh path index).2 = some (cstr l)
      ∧ (0 ∉ l → capturedLine (requestObservations self fresh path index).2 = some l) := by
  obtain ⟨h1, _, h3⟩ := requestObservations_reads self fresh path index hreach
  rw [hds] at h1 h3
  have hpos := scanLines_nread_pos index (ds.map markerTag) 0 0xFFFF (by simpa using hne)
  have hle := scanLines_nread_le index (ds.map markerTag) 0 0xFFFF
  rw [List.length_map] at hle
  generalize (scanLines index (ds.map markerTag) 0 0xFFFF).nread = n at h1 h3 hpos hle
  have hn : (requestObservations self fresh path index).2.client.nreads
      - self.client.nreads = n := by omega
  have hlt : n - 1 < ds.length := by omega
  have hget : ds[n - 1]? = some ds[n - 1] := List.getElem?_eq_getElem hlt
  have hlast : (ds.take n).getLast? = some ds[n - 1] := by
    rw [List.getLast?_take, if_neg (by omega), hget, Option.or_some]
  have hl := hshort ds[n - 1] (List.getElem_mem hlt)
  rw [hlast] at h3
  simp only at h3
  rw [store_memset_short fresh _ hl] at h3
  have hcap : capturedLine (requestObservations self fresh path index).2
      = some (cstr ds[n - 1]) := by
    unfold capturedLine
    rw [h3, Option.map_some', cstr_append_zero_any]
  refine ⟨ds[n - 1], by rw [hn]; exact hget, by omega, h3, hcap, ?_⟩
  intro h0
  rw [hcap, cstr_eq_self _ h0]

/-- C14: for every response whose lines are each shorter than `DATA_BUFSIZE` bytes (`lines`
are the lines ended by a line feed, `tail` the bytes behind the last line feed), after
`requestObservations` the block holds the last line read, its terminator and nothing but
zero bytes up to `DATA_BUFSIZE`: no byte of an earlier line is left.  The captured C string
is the text of that line (the line itself when it has no zero byte).  The last line read is
line `n - 1` of the response, `n` being the number of reads made. -/
theorem requestObservations_captures_last_read (self : BOMObservations)
    (fresh path : List Nat) (index : Nat) (lines : List (List Nat)) (tail : List Nat)
    (hreach : self.client.reachable = true) (hrx : self.client.rx = wire lines ++ tail)
    (hshort : ∀ l ∈ lines, 10 ∉ l ∧ l.length < DATA_BUFSIZE)
    (htail : 10 ∉ tail ∧ tail.length < DATA_BUFSIZE)
    (hne : lines ++ (if tail = [] then [] else [tail]) ≠ []) :
    ∃ l, (lines ++ (if tail = [] then [] else [tail]))[
            (requestObservations self fresh path index).2.client.nreads
              - self.client.nreads - 1]? = some l
      ∧ 1 ≤ (requestObservations self fresh path index).2.client.nreads - self.client.nreads
      ∧ (requestObservations self fresh path index).2.observations
          = some (l ++ 0 :: (List.replicate (DATA_BUFSIZE - 1 - l.length) 0
              ++ fresh.drop DATA_BUFSIZE))
      ∧ capturedLine (requestObservations self fresh path index).2 = some (cstr l)
      ∧ (0 ∉ l → capturedLine (requestObservations self fresh path index).2 = some l) := by
  refine requestObservations_last_read self fresh path index _ hreach
    (by rw [hrx]; exact reads_wire_tail lines tail hshort htail) ?_ hne
  intro d hd
  rcases List.mem_append.mp hd with h | h
  · exact (hshort d h).2
  · by_cases ht : tail = []
    · simp [ht] at h
    · simp only [if_neg ht, List.mem_singleton] at h
      rw [h]
      exact htail.2

/-- C14, at the response `foo`, line feed, `bar` without a line feed behind it: both lines
are read and the block holds `bar`. -/
theorem requestObservations_captures_last_read_witness :
    ∃ l, ([bytes "foo"] ++ (if bytes "bar" = [] then [] else [bytes "bar"]))[
            (requestObservations (sampleObjectRaw true (wire [bytes "foo"] ++ bytes "bar"))
              sampleBlock (bytes "/") 0).2.client.nreads
              - (sampleObjectRaw true (wire [bytes "foo"] ++ bytes "bar")).client.nreads - 1]?
          = some l
      ∧ 1 ≤ (requestObservations (sampleObjectRaw true (wire [bytes "foo"] ++ bytes "bar"))
              sampleBlock (bytes "/") 0).2.client.nreads
            - (sampleObjectRaw true (wire [bytes "foo"] ++ bytes "bar")).client.nreads
      ∧ (requestObservations (sampleObjectRaw true (wire [bytes "foo"] ++ bytes "bar"))
            sampleBlock (bytes "/") 0).2.observations
          = some (l ++ 0 :: (List.replicate (DATA_BUFSIZE - 1 - l.length) 0
              ++ sampleBlock.drop DATA_BUFSIZE))
      ∧ capturedLine (requestObservations (sampleObjectRaw true (wire [bytes "foo"] ++ bytes "bar"))
            sampleBlock (bytes "/") 0).2 = some (cstr l)
      ∧ (0 ∉ l → capturedLine (requestObservations
            (sampleObjectRaw true (wire [bytes "foo"] ++ bytes "bar"))
            sampleBlock (bytes "/") 0).2 = some l) :=
  requestObservations_captures_last_read (sampleObjectRaw true (wire [bytes "foo"] ++ bytes "bar"))
    sampleBlock (bytes "/") 0 [bytes "foo"] (bytes "bar") rfl rfl
    (by decide) (by decide) (by decide)


/-- C18: the line index and the stop index are counted in reads.  When read number
`k = pre.length` of the response is the first one that leaves the marker in the block, none
of the next `DATA_OFFSET + index` reads does, and `k + DATA_OFFSET + index` is below 65536,
the loop stops after exactly `k + DATA_OFFSET + index + 1` reads, with the bytes of read number
`k + DATA_OFFSET + index` in the block, whatever newline-terminated lines these reads belong
to.  A line of `DATA_BUFSIZE` or more bytes is several reads: the first one stores its first
`DATA_BUFSIZE` bytes and leaves the rest, line feed included, to the next reads; a line of
exactly `DATA_BUFSIZE` bytes is two reads, the second one empty.  After the loop `i_line` is
its start value plus the number of reads made, reduced to 16 bits. -/
theorem requestObservations_counts_reads (self : BOMObservations) (fresh path : List Nat)
    (index : Nat) (pre mid post : List (List Nat)) (m target : List Nat)
    (hreach : self.client.reachable = true)
    (hreads : reads self.client.rx = pre ++ m :: (mid ++ target :: post))
    (hm : cstr m = DATA_HEADER) (hpre : ∀ d ∈ pre, cstr d ≠ DATA_HEADER)
    (hmid : ∀ d ∈ mid, cstr d ≠ DATA_HEADER) (htgt : cstr target ≠ DATA_HEADER)
    (hmidlen : mid.length + 1 = DATA_OFFSET + index)
    (hbound : pre.length + DATA_OFFSET + index < 65536) :
    (requestObservations self fresh path index).2.client.stopped = true
      ∧ (requestObservations self fresh path index).2.client.nreads
          = self.client.nreads + (pre.length + DATA_OFFSET + index + 1)
      ∧ (requestObservations self fresh path index).2.observations
          = some (store (memset fresh 0 DATA_BUFSIZE) target)
      ∧ (∀ p rest : List Nat, 10 ∉ p → DATA_BUFSIZE ≤ p.length →
          reads (p ++ 10 :: rest)
            = p.take DATA_BUFSIZE :: reads (p.drop DATA_BUFSIZE ++ 10 :: rest))
      ∧ (∀ p rest : List Nat, 10 ∉ p → p.length = DATA_BUFSIZE →
          reads (p ++ 10 :: rest) = p :: [] :: reads rest)
      ∧ (∀ (fuel : Nat) (s : ScanState), s.i_line < 65536 →
          (scanLoop index fuel s).i_line
            = (s.i_line + ((scanLoop index fuel s).client.nreads - s.client.nreads))
                % 65536) := by
  obtain ⟨h1, h2, h3⟩ := requestObservations_reads self fresh path index hreach
  have hrun : scanLines index ((reads self.client.rx).map markerTag) 0 0xFFFF
      = { nread := pre.length + DATA_OFFSET + index + 1, stopped := true,
          last := some (markerTag target) } := by
    rw [hreads]
    simp only [List.map_append, List.map_cons, (markerTag_eq_header m).mpr hm]
    have := scanLines_target index (pre.map markerTag) (mid.map markerTag)
      (post.map markerTag) (markerTag target)
      (header_not_mem_map_markerTag pre hpre) (header_not_mem_map_markerTag mid hmid)
      (fun e => htgt ((markerTag_eq_header target).mp e))
      (by rw [List.length_map]; exact hmidlen) (by rw [List.length_map]; exact hbound)
    rw [List.length_map] at this
    exact this
  rw [hrun] at h1 h2 h3
  have htake : (reads self.client.rx).take (pre.length + DATA_OFFSET + index + 1)
      = pre ++ m :: (mid ++ [target]) := by
    have hsplit : pre ++ m :: (mid ++ target :: post)
        = (pre ++ m :: (mid ++ [target])) ++ post := by simp
    rw [hreads, hsplit]
    apply List.take_left'
    simp only [List.length_append, List.length_cons, List.length_nil]
    omega
  rw [htake] at h3
  have hlast : (pre ++ m :: (mid ++ [target])).getLast? = some target := by
    simp [List.getLast?_append, List.getLast?_cons]
  rw [hlast] at h3
  exact ⟨by rw [h2]; simp, h1, h3, fun p rest hp hlen => reads_long_line p rest hp hlen,
    fun p rest hp hlen => reads_full_line p rest hp hlen,
    fun fuel s hi => (scanLoop_i_line index fuel s hi).2⟩

/-- C18, at the response `[data]`, a line of 512 bytes `a`, `x`, `y` with row offset 0: the
long line is the reads 1 and 2, the loop stops after three reads, and the block holds the
empty read 2, not the line `x`. -/
theorem requestObservations_counts_reads_witness :
    (requestObservations (sampleObjectRaw true fullSecondResponse) sampleBlock
          (bytes "/") 0).2.client.stopped = true
      ∧ (requestObservations (sampleObjectRaw true fullSecondResponse) sampleBlock
          (bytes "/") 0).2.client.nreads
          = (sampleObjectRaw true fullSecondResponse).client.nreads + (0 + DATA_OFFSET + 0 + 1)
      ∧ (requestObservations (sampleObjectRaw true fullSecondResponse) sampleBlock
          (bytes "/") 0).2.observations
          = some (store (memset sampleBlock 0 DATA_BUFSIZE) [])
      ∧ (∀ p rest : List Nat, 10 ∉ p → DATA_BUFSIZE ≤ p.length →
          reads (p ++ 10 :: rest)
            = p.take DATA_BUFSIZE :: reads (p.drop DATA_BUFSIZE ++ 10 :: rest))
      ∧ (∀ p rest : List Nat, 10 ∉ p → p.length = DATA_BUFSIZE →
          reads (p ++ 10 :: rest) = p :: [] :: reads rest)
      ∧ (∀ (fuel : Nat) (s : ScanState), s.i_line < 65536 →
          (scanLoop 0 fuel s).i_line
            = (s.i_line + ((scanLoop 0 fuel s).client.nreads - s.client.nreads))
                % 65536) :=
  requestObservations_counts_reads (sampleObjectRaw true fullSecondResponse) sampleBlock
    (bytes "/") 0 [] [fullLine] [bytes "x", bytes "y"] DATA_HEADER [] rfl
    reads_fullSecondResponse (by decide) (by simp)
    (fun d hd => by rw [List.mem_singleton.mp hd]; exact cstr_fullLine_ne)
    (by decide) (by decide) (by decide)

/-! ## Where the loop stops: claim C17 -/

/-- Where the counters stop.  When the run over `lines` from `i_line = i`, `i_field = f`
stops after `n` lines, then either a marker is among them, and the last one, at index `m`,
has `n - 1 = m + DATA_OFFSET + index`; or none is, and `n - 1` is the first line index at
which `i_line` meets `f + index`. -/
theorem scanLines_stopped (index : Nat) (hindex : index < 256) :
    ∀ (lines : List (List Nat)) (i f : Nat), i < 65536 →
      (scanLines index lines i f).stopped = true →
      1 ≤ (scanLines index lines i f).nread
        ∧ (((∀ j, j < (scanLines index lines i f).nread → lines[j]? ≠ some DATA_HEADER)
              ∧ (i + ((scanLines index lines i f).nread - 1)) % 65536 = f + index
              ∧ ∀ t, t < (scanLines index lines i f).nread - 1 → (i + t) % 65536 ≠ f + index)
            ∨ ∃ m, m < (scanLines index lines i f).nread ∧ lines[m]? = some DATA_HEADER
                ∧ (∀ j, m < j → j < (scanLines index lines i f).nread →
                    lines[j]? ≠ some DATA_HEADER)
                ∧ (scanLines index lines i f).nread - 1 = m + DATA_OFFSET + index) := by
  intro lines
  induction lines with
  | nil => intro i f _ h; simp [scanLines] at h
  | cons l ls ih =>
    intro i f hi hstop
    rw [scanLines_cons] at hstop ⊢
    by_cases hl : l = DATA_HEADER
    · simp only [if_pos hl, DATA_OFFSET] at hstop ⊢
      have hns : ¬ i = (i + 2) % 65536 + index := by omega
      rw [if_neg hns] at hstop ⊢
      simp only at hstop ⊢
      obtain ⟨hpos, hcase⟩ := ih ((i + 1) % 65536) ((i + 2) % 65536)
        (Nat.mod_lt _ (by decide)) hstop
      generalize (scanLines index ls ((i + 1) % 65536) ((i + 2) % 65536)).nread = n
        at hpos hcase
      simp only [DATA_OFFSET, Nat.add_sub_cancel] at hcase ⊢
      refine ⟨by omega, Or.inr ?_⟩
      rcases hcase with ⟨hno, heq, hmin⟩ | ⟨m, hm, hmark, hafter, hidx⟩
      · refine ⟨0, by omega, by simp [hl], ?_, ?_⟩
        · intro j hj1 hj2
          obtain ⟨j, rfl⟩ : ∃ k, j = k + 1 := ⟨j - 1, by omega⟩
          rw [List.getElem?_cons_succ]
          exact hno j (by omega)
        · have hm1 := hmin (1 + index)
          omega
      · refine ⟨m + 1, by omega, by rw [List.getElem?_cons_succ]; exact hmark, ?_, by omega⟩
        intro j hj1 hj2
        obtain ⟨j, rfl⟩ : ∃ k, j = k + 1 := ⟨j - 1, by omega⟩
        rw [List.getElem?_cons_succ]
        exact hafter j (by omega) (by omega)
    · simp only [if_neg hl] at hstop ⊢
      by_cases hs : i = f + index
      · rw [if_pos hs]
        refine ⟨le_refl 1, Or.inl ⟨?_, ?_, ?_⟩⟩
        · intro j hj
          have hj0 : j = 0 := by simpa using hj
          subst hj0
          simpa using hl
        · simp only [Nat.sub_self, Nat.add_zero]
          omega
        · intro t ht
          simp at ht
      · rw [if_neg hs] at hstop ⊢
        simp only at hstop ⊢
        obtain ⟨hpos, hcase⟩ := ih ((i + 1) % 65536) f (Nat.mod_lt _ (by decide)) hstop
        generalize (scanLines index ls ((i + 1) % 65536) f).nread = n at hpos hcase
        simp only [DATA_OFFSET, Nat.add_sub_cancel] at hcase ⊢
        refine ⟨by omega, ?_⟩
        rcases hcase with ⟨hno, heq, hmin⟩ | ⟨m, hm, hmark, hafter, hidx⟩
        · refine Or.inl ⟨?_, by omega, ?_⟩
          · intro j hj
            cases j with
            | zero => simpa using hl
            | succ j =>
              rw [List.getElem?_cons_succ]
              exact hno j (by omega)
          · intro t ht
            cases t with
            | zero => omega
            | succ t =>
              have := hmin t (by omega)
              omega
        · refine Or.inr ⟨m + 1, by omega, by rw [List.getElem?_cons_succ]; exact hmark, ?_,
            by omega⟩
          intro j hj1 hj2
          obtain ⟨j, rfl⟩ : ∃ k, j = k + 1 := ⟨j - 1, by omega⟩
          rw [List.getElem?_cons_succ]
          exact hafter j (by omega) (by omega)

theorem getElem?_map_markerTag (ds : List (List Nat)) (j : Nat) :
    ((ds.map markerTag)[j]? = some DATA_HEADER) ↔ (ds[j]?.map cstr = some DATA_HEADER) := by
  rw [List.getElem?_map]
  cases ds[j]? with
  | none => simp
  | some d => simp [markerTag_eq_header]

/-- Supporting fact for C17: for every response, when `requestObservations` calls `stop`
itself, either a marker has been read, and the last read is number `m + DATA_OFFSET + index`
for the last marker `m` read, or no marker has been read, the row offset is 0, and the
last read is number 65535, where `i_line` meets the initial value of `i_field`. -/
theorem requestObservations_stop_line (self : BOMObservations) (fresh path : List Nat)
    (index : Nat) (hreach : self.client.reachable = true) (hindex : index < 256)
    (hfresh : self.client.stopped = false)
    (hstop : (requestObservations self fresh path index).2.client.stopped = true) :
    (∃ m, (requestObservations self fresh path index).2.client.nreads - self.client.nreads
            = m + DATA_OFFSET + index + 1
        ∧ (reads self.client.rx)[m]?.map cstr = some DATA_HEADER
        ∧ ∀ j, m < j → j ≤ m + DATA_OFFSET + index →
            (reads self.client.rx)[j]?.map cstr ≠ some DATA_HEADER)
      ∨ (index = 0
        ∧ (requestObservations self fresh path index).2.client.nreads - self.client.nreads
            = 65536
        ∧ ∀ j, j < 65536 → (reads self.client.rx)[j]?.map cstr ≠ some DATA_HEADER) := by
  obtain ⟨h1, h2, _⟩ := requestObservations_reads self fresh path index hreach
  rw [h2, hfresh, Bool.false_or] at hstop
  obtain ⟨hpos, hcase⟩ := scanLines_stopped index hindex _ 0 0xFFFF (by decide) hstop
  generalize (scanLines index ((reads self.client.rx).map markerTag) 0 0xFFFF).nread = n
    at h1 hpos hcase
  have hn : (requestObservations self fresh path index).2.client.nreads
      - self.client.nreads = n := by omega
  rw [hn]
  simp only [DATA_OFFSET] at hcase ⊢
  rcases hcase with ⟨hno, heq, hmin⟩ | ⟨m, hm, hmark, hafter, hidx⟩
  · have hm1 := hmin 65535
    have hn1 : n = 65536 := by omega
    refine Or.inr ⟨by omega, hn1, ?_⟩
    intro j hj hcon
    exact hno j (by omega) ((getElem?_map_markerTag _ j).mpr hcon)
  · refine Or.inl ⟨m, by omega, (getElem?_map_markerTag _ m).mp hmark, ?_⟩
    intro j hj1 hj2 hcon
    exact hafter j hj1 (by omega) ((getElem?_map_markerTag _ j).mpr hcon)

/-- C17 (the code at the failing input): on the 65537-line response `longLines` with row
offset 0, `requestObservations` calls `stop` itself after 65536 reads, yet every line read up
to and including that one is the empty line: no marker line has been read from which the
stop line could be `m + DATA_OFFSET + rowOffset`. -/
theorem requestObservations_stop_without_marker :
    (requestObservations (sampleObject true longLines) sampleBlock (bytes "/") 0).2.client.stopped
        = true
      ∧ (requestObservations (sampleObject true longLines) sampleBlock (bytes "/") 0).2.client.nreads
        = 65536
      ∧ (∀ m, m < 65536 → longLines[m]? = some [])
      ∧ ([] : List Nat) ≠ DATA_HEADER := by
  have hmem : ∀ l ∈ longLines, l = [] ∨ l = bytes "x" := by
    intro l hl
    unfold longLines at hl
    rcases List.mem_append.mp hl with h | h
    · exact Or.inl (List.eq_of_mem_replicate h)
    · exact Or.inr (List.mem_singleton.mp h)
  have hwf : ∀ l ∈ longLines, TextLine l := by
    intro l hl
    rcases hmem l hl with h | h <;> subst h <;> decide
  obtain ⟨h1, h2, _⟩ := requestObservations_wire (sampleObject true longLines) sampleBlock
    (bytes "/") 0 longLines hwf rfl rfl
  have hrun : scanLines 0 longLines 0 0xFFFF
      = { nread := 65536, stopped := true, last := some [] } :=
    scanLines_sentinel (bytes "x") 65535 rfl
  rw [hrun] at h1 h2
  refine ⟨by rw [h2]; rfl, by rw [h1]; rfl, ?_, by decide⟩
  intro m hm
  unfold longLines
  rw [List.getElem?_append_left (by rw [List.length_replicate]; exact hm),
    List.getElem?_replicate_of_lt hm]

/-! ## A row that fills the block: claim C4 -/

/-- The block after the fetch of `fullRowResponse` with row offset 0: the 512 bytes of the
target row and, right behind them, the bytes of the block that were never written. -/
theorem requestObservations_fullRow_block (fresh path : List Nat) :
    (requestObservations (sampleObjectRaw true fullRowResponse) fresh path 0).2.observations
      = some (fullLine ++ fresh.drop DATA_BUFSIZE) := by
  have hrun : scanLines 0 ((reads fullRowResponse).map markerTag) 0 0xFFFF
      = { nread := 3, stopped := true, last := some [] } := by
    rw [reads_fullRowResponse]
    simp only [List.map_cons, List.map_nil, markerTag_fullLine]
    decide
  have h := (requestObservations_reads (sampleObjectRaw true fullRowResponse) fresh path 0
    rfl).2.2
  have hrx : (sampleObjectRaw true fullRowResponse).client.rx = fullRowResponse := rfl
  rw [hrx, hrun, reads_fullRowResponse] at h
  rw [h]
  simp only [List.take_succ_cons, List.take_zero, List.getLast?_cons_cons,
    List.getLast?_singleton, store_memset_full fresh fullLine fullLine_length]

/-- C4 (the code at the failing input): the response has the lines `[data]`, `x`, a row of
512 bytes `a`, and `y`, the row offset is 0 and the block is `sampleBlock`, 2048 bytes none
of which is zero.  The captured row has no delimiter, so it has one item and every index
from 1 on is out of range.  For each of them `getItemAt` does not return the null pointer:
the row fills the 512 cleared bytes, the block holds no zero byte, and `strlen` in the loop
condition reads beyond the end of the block. -/
theorem getItemAt_full_row_out_of_range (path : List Nat) :
    (requestObservations (sampleObjectRaw true fullRowResponse) sampleBlock path 0).2.observations
        = some (fullLine ++ sampleBlock.drop DATA_BUFSIZE)
      ∧ fullLine.count DATA_DELIM = 0
      ∧ (0 ∉ fullLine ++ sampleBlock.drop DATA_BUFSIZE)
      ∧ ∀ index,
          getItemAt
              (requestObservations (sampleObjectRaw true fullRowResponse) sampleBlock path 0).2
              (index + 1)
            = .error .outOfBounds
          ∧ getItemAt
              (requestObservations (sampleObjectRaw true fullRowResponse) sampleBlock path 0).2
              (index + 1)
            ≠ .ok none := by
  have hnz : 0 ∉ fullLine ++ sampleBlock.drop DATA_BUFSIZE := by
    intro hmem
    rcases List.mem_append.mp hmem with e | e
    · exact not_mem_fullLine 0 (by decide) e
    · exact absurd (List.eq_of_mem_replicate (List.mem_of_mem_drop e)) (by decide)
  have hget : ∀ i, getItemAt
      (requestObservations (sampleObjectRaw true fullRowResponse) sampleBlock path 0).2 i
        = .error .outOfBounds := by
    intro i
    simp only [getItemAt, requestObservations_fullRow_block sampleBlock, strlen, if_neg hnz]
  refine ⟨requestObservations_fullRow_block sampleBlock path, ?_, hnz,
    fun index => ⟨hget _, ?_⟩⟩
  · exact List.count_eq_zero_of_not_mem (not_mem_fullLine _ (by decide))
  · rw [hget]
    exact fun h => by cases h

/-! ## Calls of `getItemAt` over the heap: claim C13 -/

theorem copyItemRun_eq (heap : Heap) (obs : Nat) (fresh : Nat → Nat) (blk : List Nat)
    (prev curr : Nat) (hblk : heap.blocks[obs]? = some blk) (hprev : prev < blk.length) :
    copyItemRun heap obs fresh prev curr = placed heap fresh (copyItem blk prev curr) := by
  have hobs : obs < heap.blocks.length := by
    rcases Nat.lt_or_ge obs heap.blocks.length with h | h
    · exact h
    · rw [List.getElem?_eq_none h] at hblk; cases hblk
  have hload : heap.load obs prev = .ok (blk.getD prev 0) := by
    simp only [Heap.load, Heap.block, hblk]
    rw [List.getElem?_eq_getElem hprev, List.getD_eq_getElem _ _ hprev]
  have hsrc : ∀ d : List Nat, ({ blocks := heap.blocks ++ [d] } : Heap).block obs = .ok blk := by
    intro d
    simp only [Heap.block, List.getElem?_append_left hobs, hblk]
  have hdst : ∀ d : List Nat,
      ({ blocks := heap.blocks ++ [d] } : Heap).block heap.blocks.length = .ok d := by
    intro d
    simp [Heap.block]
  unfold copyItemRun copyItem
  rw [hload]
  simp only [Heap.malloc, Heap.memcpy, hsrc, hdst, List.length_map, List.length_range]
  generalize hp : (if blk.getD prev 0 = DATA_QUOTE then (prev + 1) % 65536 else prev) = p
  generalize hc : (if blk.getD prev 0 = DATA_QUOTE then (curr + 65535) % 65536 else curr) = c
  have hp' : (if (decide (blk.getD prev 0 = DATA_QUOTE)) = true then (prev + 1) % 65536 else prev) = p := by
    rw [← hp]; simp
  have hc' : (if (decide (blk.getD prev 0 = DATA_QUOTE)) = true then (curr + 65535) % 65536 else curr) = c := by
    rw [← hc]; simp
  simp only [hp', hc']
  generalize hn : (c + 65536 - p) % 256 = n
  by_cases hin : p + n ≤ blk.length
  · have hn4 : n ≤ (n + 1) * 4 := by omega
    rw [if_pos ⟨hin, hn4⟩, if_pos hin]
    have hlen : ((blk.drop p).take n).length = n := by
      rw [List.length_take, List.length_drop]; omega
    simp only [Heap.storeByte, Heap.block, List.set_append_right _ _ (le_refl _), Nat.sub_self,
      List.set_cons_zero, List.getElem?_concat_length, placed, itemBlock, hlen]
    generalize hs : (blk.drop p).take n = s at hlen
    generalize hd : List.map fresh (List.range ((n + 1) * 4)) = d
    have hdlen : d.length = (n + 1) * 4 := by rw [← hd]; simp
    have hdrop : d.drop n = d.getD n 0 :: d.drop (n + 1) := by
      rw [List.getD_eq_getElem _ _ (by omega)]
      exact List.drop_eq_getElem_cons (by omega)
    have hstore : store d s = s ++ d.getD n 0 :: d.drop (n + 1) := by
      unfold store
      rw [hlen, hdrop]
    have hset : (store d s).set n 0 = s ++ 0 :: d.drop (n + 1) := by
      rw [hstore, List.set_append_right _ _ (by omega), hlen, Nat.sub_self, List.set_cons_zero]
    have hlt : n < (store d s).length := by
      rw [hstore]; simp; omega
    rw [if_pos hlt, hset]
  · rw [if_neg hin, if_neg (fun h => hin h.1)]
    rfl

theorem itemRun_succ (heap : Heap) (obs index : Nat) (fresh : Nat → Nat)
    (fuel i i_index i_delim_prev : Nat) :
    itemRun heap obs index fresh (fuel + 1) i i_index i_delim_prev
      = match heap.strlen obs with
        | .error e => .error e
        | .ok n =>
          if i < n then
            match heap.load obs i with
            | .error e => .error e
            | .ok c =>
              if c = DATA_DELIM then
                if index = i_index then copyItemRun heap obs fresh i_delim_prev i
                else itemRun heap obs index fresh fuel
                  ((i + 1) % 65536) ((i_index + 1) % 65536) ((i + 1) % 65536)
              else itemRun heap obs index fresh fuel ((i + 1) % 65536) i_index i_delim_prev
          else .ok (none, heap) := rfl

/-- On a terminated string the loop over the heap does what `itemLoop` does on the contents
of the block, and places the string it returns in a new block. -/
theorem itemRun_eq (heap : Heap) (obs index : Nat) (fresh : Nat → Nat) (line rest : List Nat)
    (hblk : heap.blocks[obs]? = some (line ++ 0 :: rest)) (h0 : 0 ∉ line)
    (hlen : line.length < 65536) :
    ∀ (cs pre : List Nat), line = pre ++ cs →
      ∀ (fuel i_index i_delim_prev : Nat), i_delim_prev ≤ pre.length → cs.length < fuel →
        itemRun heap obs index fresh fuel pre.length i_index i_delim_prev
          = placed heap fresh
              (itemLoop (line ++ 0 :: rest) index cs pre.length i_index i_delim_prev) := by
  have hstr : heap.strlen obs = .ok line.length := by
    have hmem : (0 : Nat) ∈ line ++ 0 :: rest := by simp
    simp only [Heap.strlen, Heap.block, hblk, BOM.strlen, if_pos hmem,
      cstr_append_zero line rest h0]
  intro cs
  induction cs with
  | nil =>
    intro pre hl fuel i_index i_delim_prev _ hfuel
    obtain ⟨fuel, rfl⟩ : ∃ k, fuel = k + 1 := ⟨fuel - 1, by simp at hfuel; omega⟩
    have hi : ¬ pre.length < line.length := by rw [hl]; simp
    rw [itemRun_succ, hstr]
    simp only [if_neg hi]
    rfl
  | cons c cs ih =>
    intro pre hl fuel i_index i_delim_prev hprev hfuel
    obtain ⟨fuel, rfl⟩ : ∃ k, fuel = k + 1 := ⟨fuel - 1, by simp at hfuel; omega⟩
    have hlen1 : line.length = pre.length + (cs.length + 1) := by rw [hl]; simp
    have hi : pre.length < line.length := by omega
    have hload : heap.load obs pre.length = .ok c := by
      have hget : (line ++ 0 :: rest)[pre.length]? = some c := by
        rw [hl, List.append_assoc, List.getElem?_append_right (le_refl _), Nat.sub_self,
          List.cons_append, List.getElem?_cons_zero]
      simp only [Heap.load, Heap.block, hblk, hget]
    have hmod : (pre.length + 1) % 65536 = (pre ++ [c]).length := by
      rw [Nat.mod_eq_of_lt (by omega)]; simp
    have hl1 : line = (pre ++ [c]) ++ cs := by rw [hl]; simp
    have hfuel1 : cs.length < fuel := by simp at hfuel; omega
    rw [itemRun_succ, hstr, itemLoop_cons]
    simp only [if_pos hi, hload]
    by_cases hc : c = DATA_DELIM
    · rw [if_pos hc, if_pos hc]
      by_cases hidx : index = i_index
      · rw [if_pos hidx, if_pos hidx]
        exact copyItemRun_eq heap obs fresh _ _ _ hblk (by simp; omega)
      · rw [if_neg hidx, if_neg hidx, hmod]
        exact ih (pre ++ [c]) hl1 fuel _ _ (le_refl _) hfuel1
    · rw [if_neg hc, if_neg hc, hmod]
      exact ih (pre ++ [c]) hl1 fuel _ _ (by simp; omega) hfuel1

theorem exists_cstr_split (blk : List Nat) (h : 0 ∈ blk) :
    ∃ rest, blk = cstr blk ++ 0 :: rest ∧ 0 ∉ cstr blk := by
  induction blk with
  | nil => simp at h
  | cons a l ih =>
    by_cases ha : a = 0
    · subst ha
      exact ⟨l, by simp [cstr], by simp [cstr]⟩
    · have hl : 0 ∈ l := by
        rcases List.mem_cons.mp h with e | e
        · exact absurd e.symm ha
        · exact e
      obtain ⟨rest, h1, h2⟩ := ih hl
      have hc : cstr (a :: l) = a :: cstr l := by
        simp [cstr, List.takeWhile_cons, ha]
      refine ⟨rest, ?_, ?_⟩
      · rw [hc, List.cons_append, ← h1]
      · rw [hc]
        intro hmem
        rcases List.mem_cons.mp hmem with e | e
        · exact ha e.symm
        · exact h2 e

/-- The run over the heap and `getItemAt` on the contents of the block agree: the same
fault, the null pointer in both, or a string whose text is placed in a new block. -/
theorem getItemAtCall_eq (self : Object) (heap : Heap) (fresh : Nat → Nat) (index p : Nat)
    (blk : List Nat) (hp : self.observations = some p) (hblk : heap.blocks[p]? = some blk)
    (hsize : blk.length ≤ 65536) :
    getItemAtCall self heap fresh index
      = placed heap fresh (getItemAt (self.view heap) index) := by
  have hview : self.view heap = { client := self.client, observations := some blk } := by
    simp only [Object.view, hp, hblk]
  rw [hview]
  simp only [getItemAtCall, hp]
  by_cases h0 : 0 ∈ blk
  · obtain ⟨rest, hsplit, hno⟩ := exists_cstr_split blk h0
    generalize cstr blk = line at hsplit hno
    subst hsplit
    have hlen : line.length < 65536 := by
      simp only [List.length_append, List.length_cons] at hsize
      omega
    rw [getItemAt_eq_itemLoop self.client line rest index hno hlen]
    exact itemRun_eq heap p index fresh line rest hblk hno hlen line [] rfl 65536 0 0
      (le_refl _) hlen
  · have hstr : heap.strlen p = .error .outOfBounds := by
      simp only [Heap.strlen, Heap.block, hblk, BOM.strlen, if_neg h0]
    have hpure : getItemAt { client := self.client, observations := some blk } index
        = .error .outOfBounds := by
      simp only [getItemAt, BOM.strlen, if_neg h0]
    rw [hpure]
    show itemRun heap p index fresh (65535 + 1) 0 0 0 = _
    rw [itemRun_succ, hstr]
    rfl

/-- On a captured line of at most `DATA_BUFSIZE` bytes in its block, `getItemAt` runs through
without a fault for every index. -/
theorem getItemAt_returns (c : WiFiClient) (line rest : List Nat) (index : Nat)
    (h0 : 0 ∉ line) (hlen : line.length ≤ DATA_BUFSIZE)
    (hblock : (line ++ 0 :: rest).length = DATA_BUFSIZE * 4) :
    ∃ r, getItemAt { client := c, observations := some (line ++ 0 :: rest) } index = .ok r := by
  simp only [DATA_BUFSIZE] at hlen hblock
  rcases Nat.lt_or_ge index (line.count DATA_DELIM) with h | h
  · obtain ⟨earlier, f, post, hsplit, hidx, hearlier, hf⟩ := exists_item_split index line h
    subst hsplit
    subst hidx
    rw [getItemAt_eq_copyItem c earlier f post rest hearlier hf h0 (by omega)]
    obtain ⟨s, hs⟩ := copyItem_ok
      ((delimited earlier ++ (f ++ DATA_DELIM :: post)) ++ 0 :: rest)
      (delimited earlier).length ((delimited earlier).length + f.length) (by omega)
      (by simp only [List.length_append, List.length_cons] at hlen hblock ⊢; omega)
    exact ⟨_, hs⟩
  · rw [getItemAt_eq_itemLoop c line rest index h0 (by omega)]
    exact ⟨_, itemLoop_null _ index line 0 0 0 (by omega)⟩

theorem placed_ok (heap heap1 : Heap) (fresh : Nat → Nat) (v : Except Fault (Option (List Nat)))
    (r : Option Nat) (h : placed heap fresh v = .ok (r, heap1)) :
    (v = .ok none ∧ r = none ∧ heap1 = heap)
      ∨ ∃ s, v = .ok (some s) ∧ r = some heap.blocks.length
          ∧ heap1 = { blocks := heap.blocks ++ [itemBlock s fresh] } := by
  match v, h with
  | .error e, h => simp [placed] at h
  | .ok none, h =>
    simp only [placed, Except.ok.injEq, Prod.mk.injEq] at h
    exact Or.inl ⟨rfl, h.1.symm, h.2.symm⟩
  | .ok (some s), h =>
    simp only [placed, Except.ok.injEq, Prod.mk.injEq] at h
    exact Or.inr ⟨s, rfl, h.1.symm, h.2.symm⟩

theorem Heap.text_itemBlock (blocks : List (List Nat)) (q : Nat) (s : List Nat)
    (fresh : Nat → Nat) (hq : blocks[q]? = some (itemBlock s fresh)) :
    ({ blocks := blocks } : Heap).text q = .ok (cstr s) := by
  have hmem : (0 : Nat) ∈ itemBlock s fresh := by simp [itemBlock]
  simp only [Heap.text, Heap.block, hq, if_pos hmem]
  unfold itemBlock
  rw [cstr_append_zero_any]

/-- C13: for every captured line and every index, a call of `getItemAt` that returns
changes no block that existed before it, so the captured line is as it was; a second call
with the same index then returns as well, the captured line is still as it was, and the two
results are both the null pointer or two strings in different blocks with the same text,
which is what `getItemAt` computes from the contents of the block.  On a captured line of at
most `DATA_BUFSIZE` bytes the call does return. -/
theorem getItemAt_repeatable (self : Object) (heap : Heap) (fresh1 fresh2 : Nat → Nat)
    (index p : Nat) (blk : List Nat)
    (hp : self.observations = some p) (hblk : heap.blocks[p]? = some blk)
    (hsize : blk.length = DATA_BUFSIZE * 4) :
    (∀ r1 heap1, getItemAtCall self heap fresh1 index = .ok (r1, heap1) →
        (∀ q, q < heap.blocks.length → heap1.blocks[q]? = heap.blocks[q]?)
          ∧ capturedLine (self.view heap1) = capturedLine (self.view heap)
          ∧ ∃ r2 heap2, getItemAtCall self heap1 fresh2 index = .ok (r2, heap2)
              ∧ capturedLine (self.view heap2) = capturedLine (self.view heap)
              ∧ ((r1 = none ∧ r2 = none ∧ getItemAt (self.view heap) index = .ok none)
                  ∨ ∃ q1 q2 s, r1 = some q1 ∧ r2 = some q2 ∧ q1 ≠ q2
                      ∧ getItemAt (self.view heap) index = .ok (some s)
                      ∧ heap2.text q1 = .ok (cstr s) ∧ heap2.text q2 = .ok (cstr s)))
      ∧ ∀ line rest, blk = line ++ 0 :: rest → 0 ∉ line → line.length ≤ DATA_BUFSIZE →
          ∃ r1 heap1, getItemAtCall self heap fresh1 index = .ok (r1, heap1) := by
  have hsize1 : blk.length ≤ 65536 := by rw [hsize]; decide
  have hpl : p < heap.blocks.length := by
    rcases Nat.lt_or_ge p heap.blocks.length with h | h
    · exact h
    · rw [List.getElem?_eq_none h] at hblk; cases hblk
  have hview : self.view heap = { client := self.client, observations := some blk } := by
    simp only [Object.view, hp, hblk]
  refine ⟨?_, ?_⟩
  · intro r1 heap1 h1
    rw [getItemAtCall_eq self heap fresh1 index p blk hp hblk hsize1] at h1
    rcases placed_ok heap heap1 fresh1 _ r1 h1 with ⟨hv, hr, hh⟩ | ⟨s, hv, hr, hh⟩
    · rw [hh]
      refine ⟨fun _ _ => rfl, rfl, none, heap, ?_, rfl, Or.inl ⟨hr, rfl, hv⟩⟩
      rw [getItemAtCall_eq self heap fresh2 index p blk hp hblk hsize1, hv]
      rfl
    · have hblk1 : heap1.blocks[p]? = some blk := by
        rw [hh]
        simp only [List.getElem?_append_left hpl, hblk]
      have hview1 : self.view heap1 = self.view heap := by
        rw [hview]
        simp only [Object.view, hp, hblk1]
      have hcall2 : getItemAtCall self heap1 fresh2 index
          = .ok (some heap1.blocks.length,
              { blocks := heap1.blocks ++ [itemBlock s fresh2] }) := by
        rw [getItemAtCall_eq self heap1 fresh2 index p blk hp hblk1 hsize1, hview1, hv]
        rfl
      have hblk2 : ({ blocks := heap1.blocks ++ [itemBlock s fresh2] } : Heap).blocks[p]?
          = some blk := by
        have : p < heap1.blocks.length := by rw [hh]; simp; omega
        simp only [List.getElem?_append_left this, hblk1]
      refine ⟨?_, by rw [hview1], _, _, hcall2, ?_, Or.inr ⟨heap.blocks.length,
        heap1.blocks.length, s, hr, rfl, ?_, hv, ?_, ?_⟩⟩
      · intro q hq
        rw [hh]
        simp only [List.getElem?_append_left hq]
      · rw [hview]
        simp only [Object.view, hp, hblk2]
      · rw [hh]; simp
      · apply Heap.text_itemBlock _ _ s fresh1
        rw [hh, List.append_assoc, List.getElem?_append_right (le_refl _), Nat.sub_self]
        rfl
      · apply Heap.text_itemBlock _ _ s fresh2
        rw [List.getElem?_append_right (le_refl _), Nat.sub_self]
        rfl
  · intro line rest hsplit h0 hlen
    subst hsplit
    obtain ⟨r, hr⟩ := getItemAt_returns self.client line rest index h0 hlen hsize
    rw [getItemAtCall_eq self heap fresh1 index p _ hp hblk hsize1, hview, hr]
    cases r with
    | none => exact ⟨_, _, rfl⟩
    | some s => exact ⟨_, _, rfl⟩

/-- Supporting fact for C13: on the captured line `a,b,c` the call for index 1 returns a
pointer to a new block, block 1 of the heap, that holds `b` and its terminator; block 0 is
as it was. -/
theorem getItemAtCall_sample (fresh : Nat → Nat) :
    getItemAtCall itemObject itemHeap fresh 1
      = .ok (some 1, { blocks := itemHeap.blocks ++ [itemBlock (bytes "b") fresh] }) := by
  have hlen : (bytes "a,b,c" ++ 0 :: List.replicate 2042 0).length ≤ 65536 := by
    rw [List.length_append, List.length_cons, List.length_replicate]
    decide
  have hview : itemObject.view itemHeap
      = { client := WiFiClient.fresh true [],
          observations := some ((delimited [bytes "a"] ++ (bytes "b" ++ DATA_DELIM :: bytes "c"))
            ++ 0 :: List.replicate 2042 0) } := rfl
  have hblk : itemHeap.blocks[0]? = some (bytes "a,b,c" ++ 0 :: List.replicate 2042 0) :=
    List.getElem?_cons_zero
  have hitem := getItemAt_plain (WiFiClient.fresh true []) [bytes "a"] (bytes "b") (bytes "c")
    (List.replicate 2042 0) (by decide) (by decide) (by decide) (by decide) (by decide)
    (by decide)
  rw [getItemAtCall_eq itemObject itemHeap fresh 1 0 _ rfl hblk hlen, hview]
  exact congrArg (placed itemHeap fresh) hitem

/-- C13, at the captured line `a,b,c` and index 1: the first call returns, the captured line
is as it was, the second call returns, and the two results are equal. -/
theorem getItemAt_repeatable_witness :
    ∃ r1 heap1, getItemAtCall itemObject itemHeap (fun _ => 0xA5) 1 = .ok (r1, heap1)
      ∧ capturedLine (itemObject.view heap1) = capturedLine (itemObject.view itemHeap)
      ∧ ∃ r2 heap2, getItemAtCall itemObject heap1 (fun _ => 0x5A) 1 = .ok (r2, heap2)
          ∧ capturedLine (itemObject.view heap2) = capturedLine (itemObject.view itemHeap)
          ∧ ((r1 = none ∧ r2 = none ∧ getItemAt (itemObject.view itemHeap) 1 = .ok none)
              ∨ ∃ q1 q2 s, r1 = some q1 ∧ r2 = some q2 ∧ q1 ≠ q2
                  ∧ getItemAt (itemObject.view itemHeap) 1 = .ok (some s)
                  ∧ heap2.text q1 = .ok (cstr s) ∧ heap2.text q2 = .ok (cstr s)) := by
  have h := getItemAt_repeatable itemObject itemHeap (fun _ => 0xA5) (fun _ => 0x5A) 1 0
    (bytes "a,b,c" ++ 0 :: List.replicate 2042 0) rfl List.getElem?_cons_zero
    (by rw [List.length_append, List.length_cons, List.length_replicate]; rfl)
  obtain ⟨r1, heap1, h1⟩ := h.2 (bytes "a,b,c") (List.replicate 2042 0) rfl (by decide)
    (by decide)
  obtain ⟨_, hc, r2, heap2, h2, hc2, hv⟩ := h.1 r1 heap1 h1
  exact ⟨r1, heap1, h1, hc, r2, heap2, h2, hc2, hv⟩

end BOM
